import Mathlib

/-!
# IntegrityGuard (`main.go`): a shallow embedding and its properties

Go strings and byte slices are sequences of bytes; a byte is a natural number
(real bytes are below 256, and every theorem below holds for all sequences of
naturals, hence for all byte sequences).  A Go `map[string]string` is a finite
map with pairwise distinct keys; `range` over a map visits its entries in an
unspecified order, which is an explicit argument (a permutation of the
entries) wherever the source ranges over a map.

Library calls are embedded by their documented behaviour:
`strings.ReplaceAll` and `strings.Contains` with one-byte patterns,
`strings.Fields`, `bufio.Scanner` with `bufio.ScanLines`, `fmt.Sprintf("%x")`,
`hash.Hash`, `cipher.AEAD` and `argon2.IDKey` (the last three as parameters).
-/

namespace IntegrityGuard

/-! ## Data model -/

/-- Go `string` and `[]byte`: a sequence of bytes, each a natural number. -/
abbrev Str := List Nat

/-- One key/value pair of a `map[string]string`. -/
abbrev Entry := Sigma (fun _ : Str => Str)

/-- Go `map[string]string`: relative path to fingerprint. -/
abbrev Manifest := AList (fun _ : Str => Str)

/-- The byte `' '`. -/
def space : Nat := 0x20

/-- The byte `'_'`. -/
def underscore : Nat := 0x5F

/-- The byte `'\n'`. -/
def newline : Nat := 0x0A

/-- The byte `'\r'`. -/
def carriageReturn : Nat := 0x0D

/-- An order in which `range m` may visit the entries of the map `m`. -/
def RangeOrder (m : Manifest) (order : List Entry) : Prop :=
  order.Perm m.entries

instance (m : Manifest) (order : List Entry) : Decidable (RangeOrder m order) := by
  unfold RangeOrder; infer_instance

/-! ## `strings` helpers with one-byte patterns -/

/-- The call `strings.ReplaceAll(s, old, new)` for one-byte `old` and `new`. -/
def ReplaceAll (s : Str) (old new : Nat) : Str :=
  s.map (fun b => if b = old then new else b)

/-- The call `strings.Contains(s, sub)` for a one-byte `sub`. -/
def Contains (s : Str) (sub : Nat) : Bool :=
  s.any (fun b => decide (b = sub))

/-! ## Verify mode: the comparison of `main` (lines 280-326) -/

/-- The lines verify mode prints, one constructor per format string. -/
inductive Report
  /-- The line `New file detected: <name>`. -/
  | newFile (name : Str)
  /-- The line `Integrity check failed for: <name>`. -/
  | checkFailed (name : Str)
  /-- The line `Deleted file detected: <name>`. -/
  | deleted (name : Str)
  /-- The line `Integrity check successful. All files are verified.` -/
  | success
  /-- The line `Some files are missing or have been modified.` -/
  | failure
  deriving DecidableEq

/-- The printed lines so far and the flag `integrityFailed`. -/
structure VerifyState where
  /-- Lines printed so far, oldest first. -/
  out : List Report
  /-- The variable `integrityFailed`. -/
  integrityFailed : Bool
  deriving DecidableEq

/-- Body of the loop `for file, recalculatedHash := range recalculatedHashes`. -/
def recalculatedStep (storedHashes : Manifest) (st : VerifyState) (e : Entry) : VerifyState :=
  let file := e.1
  let recalculatedHash := e.2
  let storedHash : Str := (storedHashes.lookup file).getD []
  let ok : Bool := (storedHashes.lookup file).isSome
  if !ok || storedHash != recalculatedHash then
    if Contains file underscore then
      let originalFilePath := ReplaceAll file underscore space
      if !ok then
        { out := st.out ++ [Report.newFile originalFilePath], integrityFailed := true }
      else
        { out := st.out ++ [Report.checkFailed originalFilePath], integrityFailed := true }
    else
      if !ok then
        { out := st.out ++ [Report.newFile file], integrityFailed := true }
      else
        { out := st.out ++ [Report.checkFailed file], integrityFailed := true }
  else st

/-- Body of the loop `for file := range storedHashes`. -/
def storedStep (recalculatedHashes : Manifest) (st : VerifyState) (e : Entry) : VerifyState :=
  let file := e.1
  let ok : Bool := (recalculatedHashes.lookup file).isSome
  if !ok then
    if Contains file underscore then
      let originalFilePath := ReplaceAll file underscore space
      { out := st.out ++ [Report.deleted originalFilePath], integrityFailed := true }
    else
      { out := st.out ++ [Report.deleted file], integrityFailed := true }
  else st

/-- The two loops of verify mode, started with `integrityFailed := false`;
`recOrder` and `stoOrder` are the orders in which the two `range` loops visit
`recalculatedHashes` and `storedHashes`. -/
def verifyLoops (storedHashes recalculatedHashes : Manifest)
    (recOrder stoOrder : List Entry) : VerifyState :=
  let st0 : VerifyState := { out := [], integrityFailed := false }
  let st1 := recOrder.foldl (recalculatedStep storedHashes) st0
  stoOrder.foldl (storedStep recalculatedHashes) st1

/-- Verify mode from `integrityFailed := false` to the final message. -/
def verifyCompare (storedHashes recalculatedHashes : Manifest)
    (recOrder stoOrder : List Entry) : VerifyState :=
  let st := verifyLoops storedHashes recalculatedHashes recOrder stoOrder
  if !st.integrityFailed then
    { st with out := st.out ++ [Report.success] }
  else
    { st with out := st.out ++ [Report.failure] }

/-- The name verify mode prints for a stored (normalized) path. -/
def reportedName (file : Str) : Str :=
  if Contains file underscore then ReplaceAll file underscore space else file

/-! ## `HashFile` (lines 26-51) -/

/-- A `hash.Hash` (in the source `sha512.New()`): an accumulator that `Write`
folds over the written bytes and `Sum(nil)` turns into the digest. -/
structure HashAlg where
  /-- The accumulator. -/
  State : Type
  /-- The accumulator of a fresh hash. -/
  init : State
  /-- Absorbing one byte. -/
  update : State → Nat → State
  /-- The digest, `Sum(nil)`. -/
  sum : State → Str

/-- The errors of the program. -/
inductive GoError
  /-- An error of `os.Open`, `file.Read`, `filepath.Walk` or `filepath.Rel`. -/
  | ioError
  /-- The error of `aes.NewCipher` for a key that is not 16, 24 or 32 bytes. -/
  | invalidKeySize
  /-- The error `ciphertext too short`. -/
  | ciphertextTooShort
  /-- The error of `gcm.Open`: `cipher: message authentication failed`. -/
  | messageAuthenticationFailed
  /-- The error `bufio.ErrTooLong` of `bufio.Scanner`: `token too long`. -/
  | tokenTooLong
  deriving DecidableEq

/-- The error of one `file.Read`. -/
inductive ReadErr
  /-- The error `io.EOF`. -/
  | eof
  /-- Any other error. -/
  | other
  deriving DecidableEq

/-- What one `file.Read(buf)` returns: the bytes `buf[:n]` and `err`. -/
structure ReadResult where
  /-- The bytes read, `buf[:n]`. -/
  data : Str
  /-- The error, `none` for `nil`. -/
  err : Option ReadErr

/-- What `HashFile` finds at `filePath`. -/
inductive FileSource
  /-- The call `os.Open` fails. -/
  | unopenable
  /-- The file opens and its successive `Read` calls return `reads`; after
  them the file is at its end and `Read` returns `0, io.EOF`. -/
  | opened (reads : List ReadResult)

/-- The size of `buf` in `HashFile`. -/
def bufSize : Nat := 1048576

/-- One lowercase hexadecimal digit. -/
def hexDigit (d : Nat) : Nat :=
  if d < 10 then 0x30 + d else 0x61 + (d - 10)

/-- The call `fmt.Sprintf("%x", bs)`: two lowercase hexadecimal digits per byte. -/
def hexEncode : Str → Str
  | [] => []
  | b :: bs => hexDigit (b % 256 / 16) :: hexDigit (b % 256 % 16) :: hexEncode bs

/-- The call `hash.Write(p)`; it never returns an error. -/
def HashAlg.write (H : HashAlg) (st : H.State) (p : Str) : H.State :=
  p.foldl H.update st

/-- The read loop of `HashFile` and its final `return`. -/
def hashLoop (H : HashAlg) : H.State → List ReadResult → Str × Option GoError
  | hash, [] => (hexEncode (H.sum hash), none)
  | hash, r :: rest =>
    let hash1 := if r.data.length > 0 then H.write hash r.data else hash
    match r.err with
    | some ReadErr.eof => (hexEncode (H.sum hash1), none)
    | some ReadErr.other => ([], some GoError.ioError)
    | none => hashLoop H hash1 rest

/-- The function `HashFile`: the fingerprint and the error. -/
def HashFile (H : HashAlg) : FileSource → Str × Option GoError
  | FileSource.unopenable => ([], some GoError.ioError)
  | FileSource.opened reads => hashLoop H H.init reads

/-! ## `HashAllFilesInDirectory` (lines 140-187) -/

/-- One call of the `filepath.Walk` callback. -/
structure WalkItem where
  /-- The callback is called with `err != nil`. -/
  walkErr : Bool
  /-- The value `info.IsDir()`. -/
  isDir : Bool
  /-- What `HashFile(path)` finds. -/
  file : FileSource
  /-- The result of `filepath.Rel(rootDir, path)`, `none` for an error. -/
  rel : Option Str

/-- The callback of the second `filepath.Walk`: the map after the call and the
error the callback returns.  Progress output is not modelled. -/
def walkFn (H : HashAlg) (hashes : Manifest) (it : WalkItem) : Manifest × Option GoError :=
  if it.walkErr then (hashes, some GoError.ioError)
  else if !it.isDir then
    match HashFile H it.file with
    | (_, some err) => (hashes, some err)
    | (hash, none) =>
      match it.rel with
      | none => (hashes, some GoError.ioError)
      | some relPath =>
        let relPath1 := ReplaceAll relPath space underscore
        (hashes.insert relPath1 hash, none)
  else (hashes, none)

/-- The walk: it stops at the first error the callback returns. -/
def walkLoop (H : HashAlg) : Manifest → List WalkItem → Manifest × Option GoError
  | hashes, [] => (hashes, none)
  | hashes, it :: rest =>
    match walkFn H hashes it with
    | (hashes1, none) => walkLoop H hashes1 rest
    | (hashes1, some err) => (hashes1, some err)

/-- The function `HashAllFilesInDirectory`: it returns `hashes, err`. -/
def HashAllFilesInDirectory (H : HashAlg) (walk : List WalkItem) : Manifest × Option GoError :=
  walkLoop H ∅ walk

/-- The files of a traversal: the items that are not directories. -/
def filesOf (walk : List WalkItem) : List WalkItem :=
  walk.filter (fun it => !it.isDir)

/-! ## The sealed manifest (lines 60-124) -/

/-- The function `GenerateKey`, that is `argon2.IDKey` with the parameters
time 4, memory 64 MiB, threads 1, key length 32: password, then salt, to key. -/
abbrev KeyDerivation := Str → Str → Str

/-- A `cipher.AEAD` together with the key it is made from (in the source
`cipher.NewGCM(aes.NewCipher(key))`), without additional data. -/
structure AEAD where
  /-- The value `gcm.NonceSize()`, 12 for AES-GCM. -/
  nonceSize : Nat
  /-- The tag length `gcm.Overhead()`, 16 for AES-GCM. -/
  overhead : Nat
  /-- The call `Seal(nil, nonce, plaintext, nil)` under `key`: the ciphertext
  followed by the tag. -/
  Seal : (key nonce plaintext : Str) → Str
  /-- The call `Open(nil, nonce, ciphertext, nil)` under `key`: the plaintext,
  or `none` for the error `cipher: message authentication failed`. -/
  Open : (key nonce ciphertext : Str) → Option Str

/-- The key lengths `aes.NewCipher` accepts. -/
def validKeySize (key : Str) : Bool :=
  key.length == 16 || key.length == 24 || key.length == 32

/-- The length of the salt. -/
def saltSize : Nat := 16

/-- The function `EncryptAndWriteToFile`: the bytes it writes to the file, or
its error; `salt` and `nonce` are the random bytes it draws. -/
def EncryptAndWriteToFile (GenerateKey : KeyDerivation) (gcm : AEAD)
    (data password salt nonce : Str) : Except GoError Str :=
  let key := GenerateKey password salt
  if !validKeySize key then Except.error GoError.invalidKeySize
  else
    let ciphertext := nonce ++ gcm.Seal key nonce data
    let ciphertextWithSalt := salt ++ ciphertext
    Except.ok ciphertextWithSalt

/-- How a call ends: with a run-time panic, or by returning a value and an
error (`none` for `nil`). -/
inductive Outcome (α : Type)
  /-- A run-time panic (slice bounds out of range). -/
  | panic
  /-- A return of `val, err`. -/
  | returned (val : α) (err : Option GoError)
  deriving DecidableEq

/-- Lines 102-124 of `DecryptFileAndLoadHashes`, from the file's bytes to the
plaintext.  For a file shorter than 16 bytes `ciphertextWithSalt[16:]` panics
(`ciphertextWithSalt[:16]` alone may not, within the capacity of the slice). -/
def decryptBlob (GenerateKey : KeyDerivation) (gcm : AEAD)
    (ciphertextWithSalt password : Str) : Outcome (Option Str) :=
  if ciphertextWithSalt.length < saltSize then Outcome.panic
  else
    let salt := ciphertextWithSalt.take saltSize
    let ciphertext := ciphertextWithSalt.drop saltSize
    let key := GenerateKey password salt
    if !validKeySize key then Outcome.returned none (some GoError.invalidKeySize)
    else
      let nonceSize := gcm.nonceSize
      if ciphertext.length < nonceSize then
        Outcome.returned none (some GoError.ciphertextTooShort)
      else
        let nonce := ciphertext.take nonceSize
        let ciphertext1 := ciphertext.drop nonceSize
        match gcm.Open key nonce ciphertext1 with
        | none => Outcome.returned none (some GoError.messageAuthenticationFailed)
        | some plaintext => Outcome.returned (some plaintext) none

/-! ## The manifest text (lines 126-136 and 248-256) -/

/-- The constant `bufio.MaxScanTokenSize`. -/
def maxScanTokenSize : Nat := 64 * 1024

/-- The function `dropCR` of `bufio`: drop one final `'\r'`. -/
def dropCR (data : Str) : Str :=
  if data.getLast? = some carriageReturn then data.dropLast else data

/-- The tokens a `bufio.Scanner` with `bufio.ScanLines` yields over a
`strings.Reader`, and `scanner.Err()`; `cur` holds the bytes of the current
line read so far.  A line is a token once its `'\n'` or the end of the input is
reached; the scanner stops with `ErrTooLong` when 65536 bytes of one line are
in its buffer without a `'\n'`. -/
def scanLoop : Str → Str → List Str × Option GoError
  | [], cur =>
    if cur = [] then ([], none)
    else if maxScanTokenSize ≤ cur.length then ([], some GoError.tokenTooLong)
    else ([dropCR cur], none)
  | b :: rest, cur =>
    if maxScanTokenSize ≤ cur.length then ([], some GoError.tokenTooLong)
    else if b = newline then
      let r := scanLoop rest []
      (dropCR cur :: r.1, r.2)
    else scanLoop rest (cur ++ [b])

/-- The scanner of `DecryptFileAndLoadHashes` over the plaintext. -/
def scanLines (plaintext : Str) : List Str × Option GoError :=
  scanLoop plaintext []

/-- The rune `utf8.RuneError`. -/
def RuneError : Nat := 0xFFFD

/-- A UTF-8 continuation byte. -/
def isCont (b : Nat) : Bool := decide (0x80 ≤ b ∧ b ≤ 0xBF)

/-- The function `utf8.DecodeRuneInString`: the first rune of `s` and its width
in bytes; an invalid or incomplete encoding is `RuneError` of width 1. -/
def DecodeRune : Str → Nat × Nat
  | [] => (RuneError, 0)
  | s0 :: rest =>
    if s0 < 0x80 then (s0, 1)
    else if 0xC2 ≤ s0 ∧ s0 ≤ 0xDF then
      match rest with
      | s1 :: _ =>
        if isCont s1 then (s0 % 32 * 64 + s1 % 64, 2) else (RuneError, 1)
      | [] => (RuneError, 1)
    else if 0xE0 ≤ s0 ∧ s0 ≤ 0xEF then
      match rest with
      | s1 :: s2 :: _ =>
        let lo := if s0 = 0xE0 then 0xA0 else 0x80
        let hi := if s0 = 0xED then 0x9F else 0xBF
        if lo ≤ s1 ∧ s1 ≤ hi ∧ isCont s2 then
          (s0 % 16 * 4096 + s1 % 64 * 64 + s2 % 64, 3)
        else (RuneError, 1)
      | _ => (RuneError, 1)
    else if 0xF0 ≤ s0 ∧ s0 ≤ 0xF4 then
      match rest with
      | s1 :: s2 :: s3 :: _ =>
        let lo := if s0 = 0xF0 then 0x90 else 0x80
        let hi := if s0 = 0xF4 then 0x8F else 0xBF
        if lo ≤ s1 ∧ s1 ≤ hi ∧ isCont s2 ∧ isCont s3 then
          (s0 % 8 * 262144 + s1 % 64 * 4096 + s2 % 64 * 64 + s3 % 64, 4)
        else (RuneError, 1)
      | _ => (RuneError, 1)
    else (RuneError, 1)

/-- The function `unicode.IsSpace`. -/
def IsSpace (r : Nat) : Bool :=
  if r ≤ 0xFF then
    decide (r = 0x09 ∨ r = 0x0A ∨ r = 0x0B ∨ r = 0x0C ∨ r = 0x0D ∨ r = 0x20 ∨
      r = 0x85 ∨ r = 0xA0)
  else
    decide (r = 0x1680 ∨ (0x2000 ≤ r ∧ r ≤ 0x200A) ∨ r = 0x2028 ∨ r = 0x2029 ∨
      r = 0x202F ∨ r = 0x205F ∨ r = 0x3000)

/-- The loop of `strings.FieldsFunc(s, unicode.IsSpace)` over the runes of the
string: `skip` bytes of the current rune are still to be passed, and `field`
holds the bytes of the field being read (`start >= 0`) or is `none`
(`start < 0`). -/
def fieldsLoop : Str → Nat → Option Str → List Str
  | [], _, none => []
  | [], _, some f => [f]
  | b :: rest, skip + 1, field => fieldsLoop rest skip (field.map (fun f => f ++ [b]))
  | b :: rest, 0, field =>
    let d := DecodeRune (b :: rest)
    if IsSpace d.1 then
      match field with
      | some f => f :: fieldsLoop rest (d.2 - 1) none
      | none => fieldsLoop rest (d.2 - 1) none
    else
      fieldsLoop rest (d.2 - 1) (some (field.getD [] ++ [b]))

/-- The function `strings.Fields`: the maximal runs of runes that are not white
space (its ASCII fast path computes the same fields). -/
def Fields (s : Str) : List Str :=
  fieldsLoop s 0 none

/-- Body of the loop `for scanner.Scan()` of `DecryptFileAndLoadHashes`. -/
def lineStep (storedHashes : Manifest) (line : Str) : Manifest :=
  match Fields line with
  | [p0, p1] => storedHashes.insert p0 p1
  | _ => storedHashes

/-- Lines 126-136 of `DecryptFileAndLoadHashes`: it returns
`storedHashes, scanner.Err()`. -/
def loadHashes (plaintext : Str) : Manifest × Option GoError :=
  let r := scanLines plaintext
  (r.1.foldl lineStep ∅, r.2)

/-- The function `DecryptFileAndLoadHashes` on the bytes of the file. -/
def DecryptFileAndLoadHashes (GenerateKey : KeyDerivation) (gcm : AEAD)
    (ciphertextWithSalt password : Str) : Outcome (Option Manifest) :=
  match decryptBlob GenerateKey gcm ciphertextWithSalt password with
  | Outcome.panic => Outcome.panic
  | Outcome.returned none err => Outcome.returned none err
  | Outcome.returned (some plaintext) _ =>
    let r := loadHashes plaintext
    Outcome.returned (some r.1) r.2

/-- Build mode, lines 248-256: the text `hashString` for the entries of
`storedHashes` in the order `range` visits them, one `"%s %s\n"` each. -/
def hashString : List Entry → Str
  | [] => []
  | e :: rest => e.1 ++ [space] ++ e.2 ++ [newline] ++ hashString rest

/-! ## Small instances of the parameters, for evaluation -/

/-- A small hash: the accumulator counts the bytes and adds them up. -/
def demoHash : HashAlg where
  State := Nat
  init := 0
  update := fun st b => st + b + 1
  sum := fun st => List.replicate 64 (st % 256)

/-- A small key derivation with 32-byte keys. -/
def demoKdf : KeyDerivation :=
  fun password salt => List.replicate 32 ((password.sum + salt.sum) % 256)

/-- The tag of the small cipher. -/
def demoTag (key nonce plaintext : Str) : Str :=
  List.replicate 16 (key.sum + nonce.sum + plaintext.sum)

/-- A small authenticated cipher with the sizes of AES-GCM: the plaintext
followed by a 16-byte tag over key, nonce and plaintext. -/
def demoGcm : AEAD where
  nonceSize := 12
  overhead := 16
  Seal := fun key nonce plaintext => plaintext ++ demoTag key nonce plaintext
  Open := fun key nonce ciphertext =>
    let body := ciphertext.take (ciphertext.length - 16)
    if 16 ≤ ciphertext.length ∧ ciphertext.drop (ciphertext.length - 16) = demoTag key nonce body
    then some body else none

/-! ## Small manifests, for evaluation -/

/-- The stored manifest `{a: H1, b: H2}` (with `H1 = "1"`, `H2 = "2"`). -/
def demoStored : Manifest :=
  AList.insert [0x61] [0x31] (AList.insert [0x62] [0x32] ∅)

/-- The recalculated manifest `{a: H1, b: H3, c: H4}`. -/
def demoRecalculated : Manifest :=
  AList.insert [0x61] [0x31] (AList.insert [0x62] [0x33] (AList.insert [0x63] [0x34] ∅))

/-- The key under which `HashAllFilesInDirectory` stores a file: its relative
path with every `' '` replaced by `'_'`. -/
def storedPath (it : WalkItem) : Str :=
  ReplaceAll (it.rel.getD []) space underscore

/-- A file that can be hashed: the walk reaches it, `HashFile` returns no
error and `filepath.Rel` returns a path. -/
def Readable (H : HashAlg) (it : WalkItem) : Prop :=
  it.walkErr = false ∧ (HashFile H it.file).2 = none ∧ it.rel.isSome = true

instance (H : HashAlg) (it : WalkItem) : Decidable (Readable H it) := by
  unfold Readable; infer_instance

/-- A traversal with the two files `a b` (content `[1]`) and `a_b` (content
`[2]`), in the lexical order of `filepath.Walk`. -/
def demoWalk : List WalkItem :=
  [ { walkErr := false, isDir := true, file := FileSource.unopenable, rel := some [0x2E] },
    { walkErr := false, isDir := false,
      file := FileSource.opened [ReadResult.mk [1] none], rel := some [0x61, 0x20, 0x62] },
    { walkErr := false, isDir := false,
      file := FileSource.opened [ReadResult.mk [2] none], rel := some [0x61, 0x5F, 0x62] } ]

/-- A traversal with the two files `a b` (content `[1]`) and `c` (content `[2]`). -/
def demoWalk2 : List WalkItem :=
  [ { walkErr := false, isDir := true, file := FileSource.unopenable, rel := some [0x2E] },
    { walkErr := false, isDir := false,
      file := FileSource.opened [ReadResult.mk [1] none], rel := some [0x61, 0x20, 0x62] },
    { walkErr := false, isDir := false,
      file := FileSource.opened [ReadResult.mk [2] none], rel := some [0x63] } ]

/-! ## Specification-side descriptions of the manifest text -/

/-- The text made of the lines `ls`, each followed by `'\n'`, and of a final
unterminated line `last` (empty when the text ends with `'\n'` or is empty). -/
def textOf : List Str → Str → Str
  | [], last => last
  | l :: ls, last => l ++ [newline] ++ textOf ls last

/-- The lines of `textOf ls last`: a final empty line does not count. -/
def linesOf (ls : List Str) (last : Str) : List Str :=
  if last = [] then ls else ls ++ [last]

/-- The entry a line stands for: a line of exactly two white-space separated
fields maps the first field to the second; any other line stands for none. -/
def lineEntry (line : Str) : Option Entry :=
  match Fields line with
  | [p0, p1] => some ⟨p0, p1⟩
  | _ => none

/-- The fingerprint the lines give to the path `k`: the second field of the
last line that has exactly two fields, the first of which is `k`. -/
def specLookup (lines : List Str) (k : Str) : Option Str :=
  ((lines.reverse.filterMap lineEntry).find? (fun e => decide (e.1 = k))).map (fun e => e.2)

/-- The line build mode writes for one entry, without its `'\n'`. -/
def lineOf (e : Entry) : Str :=
  e.1 ++ [space] ++ e.2

/-- The bytes that are white space on their own: `'\t'`, `'\n'`, `'\v'`,
`'\f'`, `'\r'` and `' '`. -/
def asciiSpace (b : Nat) : Bool :=
  decide (b = 0x09 ∨ b = 0x0A ∨ b = 0x0B ∨ b = 0x0C ∨ b = 0x0D ∨ b = 0x20)

/-- A traversal with the one file `a\tb` (content `[1]`): a name with a tab. -/
def demoTabWalk : List WalkItem :=
  [ { walkErr := false, isDir := false,
      file := FileSource.opened [ReadResult.mk [1] none], rel := some [0x61, 0x09, 0x62] } ]

/-- The manifest build mode computes for `demoTabWalk`: the path `a\tb` with
the fingerprint of the file. -/
def demoTabManifest : Manifest :=
  (HashAllFilesInDirectory demoHash demoTabWalk).1

/-- A traversal with the one file `a_b` (content `[1]`): a name with an
underscore and no space. -/
def demoUnderscoreWalk : List WalkItem :=
  [ { walkErr := false, isDir := false,
      file := FileSource.opened [ReadResult.mk [1] none], rel := some [0x61, 0x5F, 0x62] } ]

/-- A cipher with the sizes of AES-GCM that authenticates nothing: `Seal`
appends sixteen zero bytes and `Open` drops the last sixteen bytes.  Its `Open`
inverts its `Seal`. -/
def plainGcm : AEAD where
  nonceSize := 12
  overhead := 16
  Seal := fun _ _ plaintext => plaintext ++ List.replicate 16 0
  Open := fun _ _ ciphertext =>
    if 16 ≤ ciphertext.length then some (ciphertext.take (ciphertext.length - 16)) else none

/-! ## Properties -/

/-! ### Path normalization and the reported name -/

theorem ReplaceAll_ReplaceAll_of_not_mem (s : Str) (a b : Nat) (h : a ∉ s) :
    ReplaceAll (ReplaceAll s b a) a b = s := by
  induction s with
  | nil => rfl
  | cons c s ih =>
    have hc : c ≠ a := fun hca => h (by simp [hca])
    have hs : a ∉ s := fun hm => h (List.mem_cons_of_mem _ hm)
    have ih1 := ih hs
    simp only [ReplaceAll, List.map_cons, List.map_map] at ih1 ⊢
    rw [ih1]
    by_cases hcb : c = b
    · simp [hcb]
    · simp [hcb, hc]

theorem ReplaceAll_of_not_mem (s : Str) (a b : Nat) (h : a ∉ s) :
    ReplaceAll s a b = s := by
  induction s with
  | nil => rfl
  | cons c s ih =>
    have hc : c ≠ a := fun hca => h (by simp [hca])
    have hs : a ∉ s := fun hm => h (List.mem_cons_of_mem _ hm)
    have ih1 := ih hs
    simp only [ReplaceAll, List.map_cons] at ih1 ⊢
    rw [ih1]
    simp [hc]

theorem Contains_iff (s : Str) (b : Nat) : Contains s b = true ↔ b ∈ s := by
  simp [Contains, List.any_eq_true]

theorem reportedName_eq (file : Str) :
    reportedName file = ReplaceAll file underscore space := by
  unfold reportedName
  split
  · rfl
  · rename_i h
    rw [ReplaceAll_of_not_mem]
    intro hm
    exact h ((Contains_iff _ _).2 hm)

theorem reportedName_injective (p q : Str) (hp : space ∉ p) (hq : space ∉ q)
    (h : reportedName p = reportedName q) : p = q := by
  rw [reportedName_eq, reportedName_eq] at h
  have h1 := congrArg (fun s => ReplaceAll s space underscore) h
  simp only at h1
  rwa [ReplaceAll_ReplaceAll_of_not_mem _ _ _ hp, ReplaceAll_ReplaceAll_of_not_mem _ _ _ hq] at h1

/-- C8 (the code at the path `a_b`): `HashAllFilesInDirectory` stores the file
`a_b` under the key `a_b`, and verify mode, finding it new, prints the name
`a b`, every `'_'` replaced by `' '`: the printed name is not the original
path. -/
theorem reportedName_of_underscore_path :
    (HashAllFilesInDirectory demoHash demoUnderscoreWalk).1.keys = [[0x61, 0x5F, 0x62]] ∧
    (verifyCompare ∅ (HashAllFilesInDirectory demoHash demoUnderscoreWalk).1
      (HashAllFilesInDirectory demoHash demoUnderscoreWalk).1.entries []).out =
      [Report.newFile [0x61, 0x20, 0x62], Report.failure] ∧
    reportedName (ReplaceAll [0x61, 0x5F, 0x62] space underscore) = [0x61, 0x20, 0x62] ∧
    reportedName (ReplaceAll [0x61, 0x5F, 0x62] space underscore) ≠ [0x61, 0x5F, 0x62] := by
  decide

/-- Where the printed name is right: for every relative path `p` that contains
no `'_'`, the name verify mode prints for the path `HashAllFilesInDirectory`
stores for `p` (every `' '` replaced by `'_'`) is `p` itself. -/
theorem reportedName_of_no_underscore (p : Str) (h : underscore ∉ p) :
    reportedName (ReplaceAll p space underscore) = p := by
  rw [reportedName_eq]
  exact ReplaceAll_ReplaceAll_of_not_mem p underscore space h

/-! ### Verify mode -/

theorem recalculatedStep_out (S : Manifest) (st : VerifyState) (e : Entry) :
    (recalculatedStep S st e).out = st.out ++
      (match S.lookup e.1 with
       | none => [Report.newFile (reportedName e.1)]
       | some h => if h = e.2 then [] else [Report.checkFailed (reportedName e.1)]) := by
  unfold recalculatedStep reportedName
  cases hl : S.lookup e.1 with
  | none => by_cases hc : Contains e.1 underscore = true <;> simp [hc, hl]
  | some h =>
    by_cases hh : h = e.2 <;> by_cases hc : Contains e.1 underscore = true <;> simp [hh, hc, hl]

theorem recalculatedStep_failed (S : Manifest) (st : VerifyState) (e : Entry) :
    (recalculatedStep S st e).integrityFailed =
      (st.integrityFailed || decide (S.lookup e.1 ≠ some e.2)) := by
  unfold recalculatedStep
  cases hl : S.lookup e.1 with
  | none => by_cases hc : Contains e.1 underscore = true <;> simp [hc, hl]
  | some h =>
    by_cases hh : h = e.2 <;> by_cases hc : Contains e.1 underscore = true <;> simp [hh, hc, hl]

theorem storedStep_out (R : Manifest) (st : VerifyState) (e : Entry) :
    (storedStep R st e).out = st.out ++
      (match R.lookup e.1 with
       | none => [Report.deleted (reportedName e.1)]
       | some _ => []) := by
  unfold storedStep reportedName
  cases hl : R.lookup e.1 with
  | none => by_cases hc : Contains e.1 underscore = true <;> simp [hc, hl]
  | some h => simp [hl]

theorem storedStep_failed (R : Manifest) (st : VerifyState) (e : Entry) :
    (storedStep R st e).integrityFailed =
      (st.integrityFailed || decide (R.lookup e.1 = none)) := by
  unfold storedStep
  cases hl : R.lookup e.1 with
  | none => by_cases hc : Contains e.1 underscore = true <;> simp [hc, hl]
  | some h => simp [hl]

theorem mem_out_foldl (step : VerifyState → Entry → VerifyState) (f : Entry → List Report)
    (hstep : ∀ st e, (step st e).out = st.out ++ f e) (l : List Entry) (st : VerifyState)
    (r : Report) :
    r ∈ (l.foldl step st).out ↔ r ∈ st.out ∨ ∃ e ∈ l, r ∈ f e := by
  induction l generalizing st with
  | nil => simp
  | cons e l ih =>
    rw [List.foldl_cons, ih, hstep]
    simp only [List.mem_append, List.mem_cons, exists_eq_or_imp, or_assoc]

theorem failed_foldl_recalculatedStep (S : Manifest) (l : List Entry) (st : VerifyState) :
    (l.foldl (recalculatedStep S) st).integrityFailed = true ↔
      st.integrityFailed = true ∨ ∃ e ∈ l, S.lookup e.1 ≠ some e.2 := by
  induction l generalizing st with
  | nil => simp
  | cons e l ih =>
    rw [List.foldl_cons, ih, recalculatedStep_failed]
    simp only [Bool.or_eq_true, decide_eq_true_eq, List.mem_cons, exists_eq_or_imp]
    tauto

theorem failed_foldl_storedStep (R : Manifest) (l : List Entry) (st : VerifyState) :
    (l.foldl (storedStep R) st).integrityFailed = true ↔
      st.integrityFailed = true ∨ ∃ e ∈ l, R.lookup e.1 = none := by
  induction l generalizing st with
  | nil => simp
  | cons e l ih =>
    rw [List.foldl_cons, ih, storedStep_failed]
    simp only [Bool.or_eq_true, decide_eq_true_eq, List.mem_cons, exists_eq_or_imp]
    tauto

theorem mem_rangeOrder_iff (m : Manifest) (order : List Entry) (h : RangeOrder m order)
    (e : Entry) : e ∈ order ↔ m.lookup e.1 = some e.2 := by
  rw [h.mem_iff]
  have := @AList.mem_lookup_iff _ _ _ e.1 e.2 m
  simp only [Option.mem_def] at this
  rw [this]

theorem verifyLoops_failed_iff (S R : Manifest) (recOrder stoOrder : List Entry)
    (hR : RangeOrder R recOrder) (hS : RangeOrder S stoOrder) :
    (verifyLoops S R recOrder stoOrder).integrityFailed = true ↔
      ¬ ∀ k, S.lookup k = R.lookup k := by
  unfold verifyLoops
  simp only
  rw [failed_foldl_storedStep, failed_foldl_recalculatedStep]
  constructor
  · rintro ((h | ⟨e, he, hne⟩) | ⟨e, he, hn⟩) hall
    · simp at h
    · rw [mem_rangeOrder_iff R recOrder hR] at he
      exact hne ((hall e.1).trans he)
    · rw [mem_rangeOrder_iff S stoOrder hS] at he
      rw [hall e.1, hn] at he
      simp at he
  · intro hne
    obtain ⟨k, hk⟩ := not_forall.1 hne
    cases hr : R.lookup k with
    | some v =>
      refine Or.inl (Or.inr ⟨⟨k, v⟩, ?_, ?_⟩)
      · rw [mem_rangeOrder_iff R recOrder hR]
        exact hr
      · intro hs
        exact hk (hs.trans hr.symm)
    | none =>
      cases hs : S.lookup k with
      | none => exact absurd (hs.trans hr.symm) hk
      | some w =>
        refine Or.inr ⟨⟨k, w⟩, ?_, hr⟩
        rw [mem_rangeOrder_iff S stoOrder hS]
        exact hs

/-- C10: for every stored manifest `S` and recalculated manifest `R`, and for
every order in which the two `range` loops visit them, verify mode ends with
`integrityFailed = false` and the success message exactly when `S` and `R` are
equal as maps (every path has the same fingerprint, or none, in both);
otherwise it ends with the failure message. -/
theorem verifyCompare_success_iff (S R : Manifest) (recOrder stoOrder : List Entry)
    (hR : RangeOrder R recOrder) (hS : RangeOrder S stoOrder) :
    ((verifyCompare S R recOrder stoOrder).integrityFailed = false ↔
      ∀ k, S.lookup k = R.lookup k) ∧
    ((verifyCompare S R recOrder stoOrder).out.getLast? = some Report.success ↔
      ∀ k, S.lookup k = R.lookup k) ∧
    ((verifyCompare S R recOrder stoOrder).out.getLast? = some Report.failure ↔
      ¬ ∀ k, S.lookup k = R.lookup k) := by
  have key := verifyLoops_failed_iff S R recOrder stoOrder hR hS
  unfold verifyCompare
  by_cases hf : (verifyLoops S R recOrder stoOrder).integrityFailed = true
  · have hne := key.1 hf
    simp [hf, hne]
  · have hall : ∀ k, S.lookup k = R.lookup k := by
      by_contra hc
      exact hf (key.2 hc)
    simp only [Bool.not_eq_true] at hf
    simp [hf, hall]

theorem mem_out_verifyCompare (S R : Manifest) (recOrder stoOrder : List Entry) (r : Report) :
    r ∈ (verifyCompare S R recOrder stoOrder).out ↔
      (∃ e ∈ recOrder, r ∈ (match S.lookup e.1 with
        | none => [Report.newFile (reportedName e.1)]
        | some h => if h = e.2 then [] else [Report.checkFailed (reportedName e.1)])) ∨
      (∃ e ∈ stoOrder, r ∈ (match R.lookup e.1 with
        | none => [Report.deleted (reportedName e.1)]
        | some _ => [])) ∨
      r = Report.success ∧ (verifyLoops S R recOrder stoOrder).integrityFailed = false ∨
      r = Report.failure ∧ (verifyLoops S R recOrder stoOrder).integrityFailed = true := by
  have hloops : ∀ r, r ∈ (verifyLoops S R recOrder stoOrder).out ↔
      (∃ e ∈ recOrder, r ∈ (match S.lookup e.1 with
        | none => [Report.newFile (reportedName e.1)]
        | some h => if h = e.2 then [] else [Report.checkFailed (reportedName e.1)])) ∨
      (∃ e ∈ stoOrder, r ∈ (match R.lookup e.1 with
        | none => [Report.deleted (reportedName e.1)]
        | some _ => [])) := by
    intro r
    unfold verifyLoops
    simp only
    rw [mem_out_foldl (storedStep R) _ (storedStep_out R),
      mem_out_foldl (recalculatedStep S) _ (recalculatedStep_out S)]
    simp
  unfold verifyCompare
  by_cases hf : (verifyLoops S R recOrder stoOrder).integrityFailed = true
  · simp only [hf, Bool.not_true, Bool.false_eq_true, if_false, List.mem_append,
      List.mem_singleton, hloops, and_false, and_true, false_or, or_assoc, reduceCtorEq]
  · simp only [Bool.not_eq_true] at hf
    simp only [hf, Bool.not_false, if_true, List.mem_append, List.mem_singleton, hloops,
      and_false, and_true, or_false, or_assoc, Bool.false_eq_true]

theorem space_not_mem_of_lookup (m : Manifest) (hn : ∀ k ∈ m.keys, space ∉ k) (k v : Str)
    (h : m.lookup k = some v) : space ∉ k := by
  apply hn
  rw [← AList.mem_keys, ← AList.lookup_isSome, h]
  rfl

theorem newFile_mem_iff (S R : Manifest) (recOrder stoOrder : List Entry)
    (hR : RangeOrder R recOrder)
    (hRn : ∀ k ∈ R.keys, space ∉ k) (p : Str) (hpn : space ∉ p) :
    Report.newFile (reportedName p) ∈ (verifyCompare S R recOrder stoOrder).out ↔
      p ∈ R ∧ p ∉ S := by
  rw [mem_out_verifyCompare]
  constructor
  · rintro (⟨e, he, hm⟩ | ⟨e, _, hm⟩ | ⟨hm, _⟩ | ⟨hm, _⟩)
    · rw [mem_rangeOrder_iff R recOrder hR] at he
      cases hl : S.lookup e.1 with
      | none =>
        rw [hl] at hm
        simp only [List.mem_singleton, Report.newFile.injEq] at hm
        have hpe : p = e.1 :=
          reportedName_injective p e.1 hpn (space_not_mem_of_lookup R hRn _ _ he) hm
        subst hpe
        exact ⟨by rw [← AList.lookup_isSome, he]; rfl, AList.lookup_eq_none.1 hl⟩
      | some h =>
        rw [hl] at hm
        by_cases hh : h = e.2 <;> simp [hh] at hm
    · cases hl : R.lookup e.1 with
      | none => rw [hl] at hm; simp at hm
      | some h => rw [hl] at hm; simp at hm
    · exact absurd hm (by simp)
    · exact absurd hm (by simp)
  · rintro ⟨hr, hs⟩
    obtain ⟨v, hv⟩ := Option.isSome_iff_exists.1 (AList.lookup_isSome.2 hr)
    refine Or.inl ⟨⟨p, v⟩, (mem_rangeOrder_iff R recOrder hR _).2 hv, ?_⟩
    rw [AList.lookup_eq_none.2 hs]
    simp

theorem checkFailed_mem_iff (S R : Manifest) (recOrder stoOrder : List Entry)
    (hR : RangeOrder R recOrder)
    (hRn : ∀ k ∈ R.keys, space ∉ k) (p : Str) (hpn : space ∉ p) :
    Report.checkFailed (reportedName p) ∈ (verifyCompare S R recOrder stoOrder).out ↔
      ∃ hs hr, S.lookup p = some hs ∧ R.lookup p = some hr ∧ hs ≠ hr := by
  rw [mem_out_verifyCompare]
  constructor
  · rintro (⟨e, he, hm⟩ | ⟨e, _, hm⟩ | ⟨hm, _⟩ | ⟨hm, _⟩)
    · rw [mem_rangeOrder_iff R recOrder hR] at he
      cases hl : S.lookup e.1 with
      | none => rw [hl] at hm; simp at hm
      | some h =>
        rw [hl] at hm
        by_cases hh : h = e.2
        · simp [hh] at hm
        · simp only [hh, if_false, List.mem_singleton, Report.checkFailed.injEq] at hm
          have hpe : p = e.1 :=
            reportedName_injective p e.1 hpn (space_not_mem_of_lookup R hRn _ _ he) hm
          subst hpe
          exact ⟨h, e.2, hl, he, hh⟩
    · cases hl : R.lookup e.1 with
      | none => rw [hl] at hm; simp at hm
      | some h => rw [hl] at hm; simp at hm
    · exact absurd hm (by simp)
    · exact absurd hm (by simp)
  · rintro ⟨hs, hr, h1, h2, h3⟩
    refine Or.inl ⟨⟨p, hr⟩, (mem_rangeOrder_iff R recOrder hR _).2 h2, ?_⟩
    rw [h1]
    simp [h3]

theorem deleted_mem_iff (S R : Manifest) (recOrder stoOrder : List Entry)
    (hS : RangeOrder S stoOrder)
    (hSn : ∀ k ∈ S.keys, space ∉ k) (p : Str) (hpn : space ∉ p) :
    Report.deleted (reportedName p) ∈ (verifyCompare S R recOrder stoOrder).out ↔
      p ∈ S ∧ p ∉ R := by
  rw [mem_out_verifyCompare]
  constructor
  · rintro (⟨e, _, hm⟩ | ⟨e, he, hm⟩ | ⟨hm, _⟩ | ⟨hm, _⟩)
    · cases hl : S.lookup e.1 with
      | none => rw [hl] at hm; simp at hm
      | some h =>
        rw [hl] at hm
        by_cases hh : h = e.2 <;> simp [hh] at hm
    · rw [mem_rangeOrder_iff S stoOrder hS] at he
      cases hl : R.lookup e.1 with
      | none =>
        rw [hl] at hm
        simp only [List.mem_singleton, Report.deleted.injEq] at hm
        have hpe : p = e.1 :=
          reportedName_injective p e.1 hpn (space_not_mem_of_lookup S hSn _ _ he) hm
        subst hpe
        exact ⟨by rw [← AList.lookup_isSome, he]; rfl, AList.lookup_eq_none.1 hl⟩
      | some h => rw [hl] at hm; simp at hm
    · exact absurd hm (by simp)
    · exact absurd hm (by simp)
  · rintro ⟨hs, hr⟩
    obtain ⟨v, hv⟩ := Option.isSome_iff_exists.1 (AList.lookup_isSome.2 hs)
    refine Or.inr (Or.inl ⟨⟨p, v⟩, (mem_rangeOrder_iff S stoOrder hS _).2 hv, ?_⟩)
    rw [AList.lookup_eq_none.2 hr]
    simp

/-- C1: for every stored manifest `S` and recalculated manifest `R` whose paths
are normalized (no `' '`), for every order in which the two `range` loops visit
them and every path `p` of `S` or `R`: `p` is reported as new exactly when it
is in `R` and not in `S`, as failed exactly when it is in both with different
fingerprints, as deleted exactly when it is in `S` and not in `R`, in none of
the three exactly when it is in both with equal fingerprints, and never in two
of the three. -/
theorem verifyCompare_classifies (S R : Manifest) (recOrder stoOrder : List Entry)
    (hR : RangeOrder R recOrder) (hS : RangeOrder S stoOrder)
    (hSn : ∀ k ∈ S.keys, space ∉ k) (hRn : ∀ k ∈ R.keys, space ∉ k)
    (p : Str) (hp : p ∈ S ∨ p ∈ R) :
    (Report.newFile (reportedName p) ∈ (verifyCompare S R recOrder stoOrder).out ↔
      p ∈ R ∧ p ∉ S) ∧
    (Report.checkFailed (reportedName p) ∈ (verifyCompare S R recOrder stoOrder).out ↔
      ∃ hs hr, S.lookup p = some hs ∧ R.lookup p = some hr ∧ hs ≠ hr) ∧
    (Report.deleted (reportedName p) ∈ (verifyCompare S R recOrder stoOrder).out ↔
      p ∈ S ∧ p ∉ R) ∧
    ((Report.newFile (reportedName p) ∉ (verifyCompare S R recOrder stoOrder).out ∧
      Report.checkFailed (reportedName p) ∉ (verifyCompare S R recOrder stoOrder).out ∧
      Report.deleted (reportedName p) ∉ (verifyCompare S R recOrder stoOrder).out) ↔
      ∃ h, S.lookup p = some h ∧ R.lookup p = some h) ∧
    ¬ (Report.newFile (reportedName p) ∈ (verifyCompare S R recOrder stoOrder).out ∧
      Report.checkFailed (reportedName p) ∈ (verifyCompare S R recOrder stoOrder).out) ∧
    ¬ (Report.newFile (reportedName p) ∈ (verifyCompare S R recOrder stoOrder).out ∧
      Report.deleted (reportedName p) ∈ (verifyCompare S R recOrder stoOrder).out) ∧
    ¬ (Report.checkFailed (reportedName p) ∈ (verifyCompare S R recOrder stoOrder).out ∧
      Report.deleted (reportedName p) ∈ (verifyCompare S R recOrder stoOrder).out) := by
  have hpn : space ∉ p := by
    rcases hp with hp | hp
    · exact hSn p (AList.mem_keys.1 hp)
    · exact hRn p (AList.mem_keys.1 hp)
  have hA := newFile_mem_iff S R recOrder stoOrder hR hRn p hpn
  have hM := checkFailed_mem_iff S R recOrder stoOrder hR hRn p hpn
  have hD := deleted_mem_iff S R recOrder stoOrder hS hSn p hpn
  rw [hA, hM, hD]
  have hSm : p ∈ S ↔ ∃ v, S.lookup p = some v := by
    rw [← AList.lookup_isSome, Option.isSome_iff_exists]
  have hRm : p ∈ R ↔ ∃ v, R.lookup p = some v := by
    rw [← AList.lookup_isSome, Option.isSome_iff_exists]
  simp only [hSm, hRm] at hp ⊢
  cases hs : S.lookup p with
  | none =>
    cases hr : R.lookup p with
    | none => simp [hs, hr] at hp
    | some w => simp
  | some v =>
    cases hr : R.lookup p with
    | none => simp
    | some w =>
      by_cases hvw : v = w
      · simp [hvw]
      · simp [hvw, Ne.symm hvw]

/-- C1, witness: the manifests `S = {a: H1, b: H2}` and `R = {a: H1, b: H3, c: H4}`
at the path `b`. -/
theorem verifyCompare_classifies_witness :
    RangeOrder demoRecalculated demoRecalculated.entries ∧
    RangeOrder demoStored demoStored.entries ∧
    (Report.checkFailed (reportedName [0x62]) ∈
      (verifyCompare demoStored demoRecalculated demoRecalculated.entries
        demoStored.entries).out ↔
      ∃ hs hr, demoStored.lookup [0x62] = some hs ∧ demoRecalculated.lookup [0x62] = some hr ∧
        hs ≠ hr) :=
  ⟨by decide, by decide,
    (verifyCompare_classifies demoStored demoRecalculated demoRecalculated.entries
      demoStored.entries (by decide) (by decide) (by decide) (by decide) [0x62]
      (by decide)).2.1⟩

/-- C1, the example of the specification: `S = {a: H1, b: H2}` and
`R = {a: H1, b: H3, c: H4}` give the report "failed: b", "new: c" and the
failure message; `a` is unchanged and nothing is deleted. -/
theorem verifyCompare_demo :
    (verifyCompare demoStored demoRecalculated demoRecalculated.entries
      demoStored.entries).out =
      [Report.checkFailed [0x62], Report.newFile [0x63], Report.failure] := by
  decide

/-- C10, witness: the manifests `S = {a: H1, b: H2}` and `R = {a: H1, b: H3, c: H4}`. -/
theorem verifyCompare_success_iff_witness :
    RangeOrder demoRecalculated demoRecalculated.entries ∧
    RangeOrder demoStored demoStored.entries ∧
    ((verifyCompare demoStored demoRecalculated demoRecalculated.entries
        demoStored.entries).out.getLast? = some Report.failure ↔
      ¬ ∀ k, demoStored.lookup k = demoRecalculated.lookup k) :=
  ⟨by decide, by decide,
    (verifyCompare_success_iff demoStored demoRecalculated demoRecalculated.entries
      demoStored.entries (by decide) (by decide)).2.2⟩

/-! ### `HashFile` -/

theorem write_of_length (H : HashAlg) (st : H.State) (data : Str) :
    (if data.length > 0 then H.write st data else st) = H.write st data := by
  cases data with
  | nil => rfl
  | cons b bs => simp

theorem hashLoop_chunks (H : HashAlg) (chunks : List Str) (tail : List ReadResult)
    (st : H.State) :
    hashLoop H st (chunks.map (fun c => ReadResult.mk c none) ++ tail) =
      hashLoop H (H.write st chunks.flatten) tail := by
  induction chunks generalizing st with
  | nil => rfl
  | cons c chunks ih =>
    have h := ih (H.write st c)
    simp only [List.map_cons, List.cons_append, hashLoop, write_of_length, List.flatten_cons,
      List.append_eq]
    rw [h]
    simp [HashAlg.write]

theorem length_hexEncode (bs : Str) : (hexEncode bs).length = 2 * bs.length := by
  induction bs with
  | nil => rfl
  | cons b bs ih => simp only [hexEncode, List.length_cons, ih]; omega

theorem hexDigit_range (d : Nat) (h : d < 16) :
    (0x30 ≤ hexDigit d ∧ hexDigit d ≤ 0x39) ∨ (0x61 ≤ hexDigit d ∧ hexDigit d ≤ 0x66) := by
  by_cases hd : d < 10
  · left
    simp only [hexDigit, hd, if_true]
    omega
  · right
    simp only [hexDigit, hd, if_false]
    omega

theorem mem_hexEncode (bs : Str) (c : Nat) (h : c ∈ hexEncode bs) :
    (0x30 ≤ c ∧ c ≤ 0x39) ∨ (0x61 ≤ c ∧ c ≤ 0x66) := by
  induction bs with
  | nil => simp [hexEncode] at h
  | cons b bs ih =>
    simp only [hexEncode, List.mem_cons] at h
    rcases h with h | h | h
    · rw [h]; exact hexDigit_range _ (by omega)
    · rw [h]; exact hexDigit_range _ (by omega)
    · exact ih h

/-- C9: for every byte content and every way the reads of the loop of
`HashFile` split it into chunks (of any size, so in particular of at most
1048576 bytes; empty reads allowed; the end of file reported with the last
bytes, alone, or by the end of the reads), `HashFile` returns without error
the same fingerprint: the hexadecimal encoding of the digest of the whole
content, 128 characters from `0-9a-f` for a 64-byte digest. -/
theorem HashFile_chunking (H : HashAlg) (hsum : ∀ st, (H.sum st).length = 64)
    (chunks : List Str) (last : Str) :
    HashFile H (FileSource.opened
        (chunks.map (fun c => ReadResult.mk c none) ++ [ReadResult.mk last (some ReadErr.eof)])) =
      (hexEncode (H.sum (H.write H.init (chunks.flatten ++ last))), none) ∧
    HashFile H (FileSource.opened (chunks.map (fun c => ReadResult.mk c none))) =
      (hexEncode (H.sum (H.write H.init chunks.flatten)), none) ∧
    (hexEncode (H.sum (H.write H.init (chunks.flatten ++ last)))).length = 128 ∧
    ∀ c ∈ hexEncode (H.sum (H.write H.init (chunks.flatten ++ last))),
      (0x30 ≤ c ∧ c ≤ 0x39) ∨ (0x61 ≤ c ∧ c ≤ 0x66) := by
  refine ⟨?_, ?_, ?_, ?_⟩
  · unfold HashFile
    simp only
    rw [hashLoop_chunks]
    simp only [hashLoop, write_of_length]
    simp [HashAlg.write]
  · unfold HashFile
    simp only
    have h := hashLoop_chunks H chunks [] H.init
    rw [List.append_nil] at h
    rw [h]
    rfl
  · rw [length_hexEncode, hsum]
  · intro c hc
    exact mem_hexEncode _ c hc

/-- C9, witness: the content `[1, 2, 3]` read as `[1]`, `[]`, `[2, 3]` and the
end of file, with the small hash. -/
theorem HashFile_chunking_witness :
    (∀ st, (demoHash.sum st).length = 64) ∧
    HashFile demoHash (FileSource.opened
        ([[1], [], [2, 3]].map (fun c => ReadResult.mk c none) ++
          [ReadResult.mk [] (some ReadErr.eof)])) =
      (hexEncode (demoHash.sum (demoHash.write demoHash.init ([[1], [], [2, 3]].flatten ++ []))),
        none) :=
  ⟨fun _ => List.length_replicate _ _,
    (HashFile_chunking demoHash (fun _ => List.length_replicate _ _) [[1], [], [2, 3]] []).1⟩

/-! ### The scanner never returns another error than `ErrTooLong` -/

theorem scanLoop_err (data cur : Str) :
    (scanLoop data cur).2 = none ∨ (scanLoop data cur).2 = some GoError.tokenTooLong := by
  induction data generalizing cur with
  | nil =>
    unfold scanLoop
    split
    · exact Or.inl rfl
    · split
      · exact Or.inr rfl
      · exact Or.inl rfl
  | cons b rest ih =>
    unfold scanLoop
    split
    · exact Or.inr rfl
    · split
      · exact ih []
      · exact ih _

theorem scanLines_err (plaintext : Str) :
    (scanLines plaintext).2 = none ∨ (scanLines plaintext).2 = some GoError.tokenTooLong :=
  scanLoop_err plaintext []

/-! ### The sealed manifest -/

theorem validKeySize_of_length (key : Str) (h : key.length = 32) : validKeySize key = true := by
  simp [validKeySize, h]

theorem decryptBlob_sealed (GenerateKey : KeyDerivation) (gcm : AEAD) (W salt nonce c : Str)
    (hsalt : salt.length = 16) (hnonce : nonce.length = gcm.nonceSize)
    (hkey : ∀ pw s, (GenerateKey pw s).length = 32) :
    decryptBlob GenerateKey gcm (salt ++ (nonce ++ c)) W =
      match gcm.Open (GenerateKey W salt) nonce c with
      | none => Outcome.returned none (some GoError.messageAuthenticationFailed)
      | some plaintext => Outcome.returned (some plaintext) none := by
  have h1 : ¬ (salt ++ (nonce ++ c)).length < saltSize := by
    simp only [List.length_append, hsalt, saltSize]; omega
  have h2 : (salt ++ (nonce ++ c)).take saltSize = salt := List.take_left' hsalt
  have h3 : (salt ++ (nonce ++ c)).drop saltSize = nonce ++ c := List.drop_left' hsalt
  have h4 : ¬ (nonce ++ c).length < gcm.nonceSize := by
    simp only [List.length_append, hnonce]; omega
  have h5 : (nonce ++ c).take gcm.nonceSize = nonce := List.take_left' hnonce
  have h6 : (nonce ++ c).drop gcm.nonceSize = c := List.drop_left' hnonce
  unfold decryptBlob
  simp only [h1, h2, h3, h4, h5, h6, if_false, validKeySize_of_length _ (hkey W salt),
    Bool.not_true, Bool.false_eq_true]

theorem demoGcm_open_seal (key nonce plaintext : Str) :
    demoGcm.Open key nonce (demoGcm.Seal key nonce plaintext) = some plaintext := by
  simp [demoGcm, demoTag]

theorem demoKdf_length (pw s : Str) : (demoKdf pw s).length = 32 := by
  simp [demoKdf]

/-- C2: for every plaintext `P`, password `W`, 16-byte salt and nonce of the
nonce size of the cipher, `EncryptAndWriteToFile` writes the blob salt, nonce,
sealed plaintext, and the decryption steps of `DecryptFileAndLoadHashes` with
`W` on that blob succeed and return exactly `P` (so the whole function returns
what the line parser makes of `P`), provided `Open` inverts `Seal` under the
same key and nonce and the derived key has 32 bytes. -/
theorem decrypt_encrypt_roundtrip (GenerateKey : KeyDerivation) (gcm : AEAD) (P W salt nonce : Str)
    (hsalt : salt.length = 16) (hnonce : nonce.length = gcm.nonceSize)
    (hkey : ∀ pw s, (GenerateKey pw s).length = 32)
    (hopen : ∀ key n pt, n.length = gcm.nonceSize → gcm.Open key n (gcm.Seal key n pt) = some pt) :
    EncryptAndWriteToFile GenerateKey gcm P W salt nonce =
      Except.ok (salt ++ (nonce ++ gcm.Seal (GenerateKey W salt) nonce P)) ∧
    decryptBlob GenerateKey gcm (salt ++ (nonce ++ gcm.Seal (GenerateKey W salt) nonce P)) W =
      Outcome.returned (some P) none ∧
    DecryptFileAndLoadHashes GenerateKey gcm (salt ++ (nonce ++ gcm.Seal (GenerateKey W salt) nonce P)) W =
      Outcome.returned (some (loadHashes P).1) (loadHashes P).2 := by
  have hd : decryptBlob GenerateKey gcm (salt ++ (nonce ++ gcm.Seal (GenerateKey W salt) nonce P)) W =
      Outcome.returned (some P) none := by
    rw [decryptBlob_sealed GenerateKey gcm W salt nonce _ hsalt hnonce hkey, hopen _ _ _ hnonce]
  refine ⟨?_, hd, ?_⟩
  · unfold EncryptAndWriteToFile
    simp [validKeySize_of_length _ (hkey W salt)]
  · unfold DecryptFileAndLoadHashes
    rw [hd]

/-- C2, witness: the small cipher and key derivation, plaintext `a 1\n`. -/
theorem decrypt_encrypt_roundtrip_witness :
    (List.replicate 16 7).length = 16 ∧ (List.replicate 12 5).length = demoGcm.nonceSize ∧
    (∀ pw s, (demoKdf pw s).length = 32) ∧
    (∀ key n pt, n.length = demoGcm.nonceSize →
      demoGcm.Open key n (demoGcm.Seal key n pt) = some pt) ∧
    decryptBlob demoKdf demoGcm
        (List.replicate 16 7 ++ (List.replicate 12 5 ++
          demoGcm.Seal (demoKdf [0x70] (List.replicate 16 7)) (List.replicate 12 5)
            [0x61, 0x20, 0x31, 0x0A])) [0x70] =
      Outcome.returned (some [0x61, 0x20, 0x31, 0x0A]) none :=
  ⟨by decide, by decide, demoKdf_length, fun key n pt _ => demoGcm_open_seal key n pt,
    (decrypt_encrypt_roundtrip demoKdf demoGcm [0x61, 0x20, 0x31, 0x0A] [0x70]
      (List.replicate 16 7) (List.replicate 12 5) (by decide) (by decide) demoKdf_length
      (fun key n pt _ => demoGcm_open_seal key n pt)).2.1⟩

/-- C4 (as stated, refuted): a 3-byte blob makes `DecryptFileAndLoadHashes`
panic on the slice, and a 36-byte blob, whose part after the salt has
20 < 12 + 16 bytes, is answered with the authentication error, not with
`ciphertext too short`. -/
theorem decrypt_short_blob_counterexample :
    DecryptFileAndLoadHashes demoKdf demoGcm [1, 2, 3] [0x70] = Outcome.panic ∧
    (List.replicate 36 0).length - 16 < demoGcm.nonceSize + demoGcm.overhead ∧
    DecryptFileAndLoadHashes demoKdf demoGcm (List.replicate 36 0) [0x70] =
      Outcome.returned none (some GoError.messageAuthenticationFailed) := by
  decide

theorem demoGcm_open_short (key n c : Str) (h : c.length < demoGcm.overhead) :
    demoGcm.Open key n c = none := by
  have h1 : ¬ 16 ≤ c.length := by
    simp only [demoGcm] at h
    omega
  simp [demoGcm, h1]

/-- C4 (amended): for every blob of at least 16 bytes and every password, if
the part of the blob after the first 16 bytes is shorter than the nonce length
of the cipher, `DecryptFileAndLoadHashes` returns no manifest and the error
`ciphertext too short`; whenever that part has at least the nonce length, the
error is not `ciphertext too short`; and with a cipher whose `Open` rejects
every ciphertext shorter than its tag, as `gcm.Open` does, a part of at least
the nonce length and less than nonce plus tag length is answered with no
manifest and the authentication error. -/
theorem decrypt_short_blob (GenerateKey : KeyDerivation) (gcm : AEAD) (blob W : Str)
    (hkey : ∀ pw s, (GenerateKey pw s).length = 32) (hlen : 16 ≤ blob.length) :
    (blob.length - 16 < gcm.nonceSize →
      DecryptFileAndLoadHashes GenerateKey gcm blob W =
        Outcome.returned none (some GoError.ciphertextTooShort)) ∧
    (gcm.nonceSize ≤ blob.length - 16 →
      ∀ m, DecryptFileAndLoadHashes GenerateKey gcm blob W ≠
        Outcome.returned m (some GoError.ciphertextTooShort)) ∧
    ((∀ key n c, c.length < gcm.overhead → gcm.Open key n c = none) →
      gcm.nonceSize ≤ blob.length - 16 →
      blob.length - 16 < gcm.nonceSize + gcm.overhead →
      DecryptFileAndLoadHashes GenerateKey gcm blob W =
        Outcome.returned none (some GoError.messageAuthenticationFailed)) := by
  have h1 : ¬ blob.length < saltSize := by simp only [saltSize]; omega
  have hk := validKeySize_of_length _ (hkey W (blob.take saltSize))
  refine ⟨?_, ?_, ?_⟩
  · intro h
    have h2 : (blob.drop saltSize).length < gcm.nonceSize := by
      simp only [List.length_drop, saltSize]; exact h
    unfold DecryptFileAndLoadHashes decryptBlob
    simp only [h1, h2, hk, if_false, if_true, Bool.not_true, Bool.false_eq_true]
  · intro h m
    have h2 : ¬ (blob.drop saltSize).length < gcm.nonceSize := by
      simp only [List.length_drop, saltSize]; omega
    unfold DecryptFileAndLoadHashes decryptBlob
    simp only [h1, h2, hk, if_false, Bool.not_true, Bool.false_eq_true]
    cases gcm.Open (GenerateKey W (blob.take saltSize)) ((blob.drop saltSize).take gcm.nonceSize)
      ((blob.drop saltSize).drop gcm.nonceSize) with
    | none => simp
    | some pt =>
      simp only [ne_eq, Outcome.returned.injEq, not_and]
      intro _ he
      have hs := scanLines_err pt
      simp only [loadHashes] at he
      rcases hs with hs | hs <;> rw [hs] at he <;> simp at he
  · intro hshort h hlt
    have h2 : ¬ (blob.drop saltSize).length < gcm.nonceSize := by
      simp only [List.length_drop, saltSize]; omega
    have h3 : ((blob.drop saltSize).drop gcm.nonceSize).length < gcm.overhead := by
      simp only [List.length_drop, saltSize]; omega
    unfold DecryptFileAndLoadHashes decryptBlob
    simp only [h1, h2, hk, if_false, Bool.not_true, Bool.false_eq_true,
      hshort _ _ _ h3]

/-- C4, witness: a 20-byte blob, 4 bytes after the salt, gets the format
error; a 36-byte blob, 20 bytes after the salt, gets the authentication error
from the small cipher. -/
theorem decrypt_short_blob_witness :
    (∀ pw s, (demoKdf pw s).length = 32) ∧ 16 ≤ (List.replicate 20 0).length ∧
    16 ≤ (List.replicate 36 0).length ∧
    (∀ key n c, c.length < demoGcm.overhead → demoGcm.Open key n c = none) ∧
    DecryptFileAndLoadHashes demoKdf demoGcm (List.replicate 20 0) [0x70] =
      Outcome.returned none (some GoError.ciphertextTooShort) ∧
    DecryptFileAndLoadHashes demoKdf demoGcm (List.replicate 36 0) [0x70] =
      Outcome.returned none (some GoError.messageAuthenticationFailed) :=
  ⟨demoKdf_length, by decide, by decide, demoGcm_open_short,
    (decrypt_short_blob demoKdf demoGcm (List.replicate 20 0) [0x70] demoKdf_length
      (by decide)).1 (by decide),
    (decrypt_short_blob demoKdf demoGcm (List.replicate 36 0) [0x70] demoKdf_length
      (by decide)).2.2 demoGcm_open_short (by decide) (by decide)⟩

theorem sum_set_ne (l : List Nat) (i b : Nat) (hi : i < l.length) (hb : l[i]? ≠ some b) :
    (l.set i b).sum ≠ l.sum := by
  induction l generalizing i with
  | nil => simp at hi
  | cons a l ih =>
    cases i with
    | zero =>
      simp only [List.set_cons_zero, List.sum_cons]
      simp only [List.getElem?_cons_zero, ne_eq, Option.some.injEq] at hb
      omega
    | succ i =>
      simp only [List.set_cons_succ, List.sum_cons]
      simp only [List.getElem?_cons_succ] at hb
      simp only [List.length_cons, Nat.add_lt_add_iff_right] at hi
      have := ih i hi hb
      omega

theorem set_ne_self (l : List Nat) (i b : Nat) (hi : i < l.length) (hb : l[i]? ≠ some b) :
    l.set i b ≠ l := by
  intro h
  apply hb
  have h1 : (l.set i b)[i]? = some b := by
    rw [List.getElem?_set]
    simp [hi]
  rw [h] at h1
  exact h1

theorem demoGcm_open_set (key nonce P : Str) (i b : Nat)
    (hi : i < (demoGcm.Seal key nonce P).length)
    (hb : (demoGcm.Seal key nonce P)[i]? ≠ some b) :
    demoGcm.Open key nonce ((demoGcm.Seal key nonce P).set i b) = none := by
  simp only [demoGcm, List.length_append, demoTag, List.length_replicate] at hi hb ⊢
  by_cases hlt : i < P.length
  · rw [List.set_append_left _ _ hlt]
    rw [List.getElem?_append_left hlt] at hb
    have hsum := sum_set_ne P i b hlt hb
    simp only [List.length_append, List.length_set, List.length_replicate,
      Nat.add_sub_cancel]
    have ht : (P.set i b ++ List.replicate 16 (key.sum + nonce.sum + P.sum)).take P.length =
        P.set i b := List.take_left' (List.length_set _ _ _)
    have hd : (P.set i b ++ List.replicate 16 (key.sum + nonce.sum + P.sum)).drop P.length =
        List.replicate 16 (key.sum + nonce.sum + P.sum) := List.drop_left' (List.length_set _ _ _)
    rw [ht, hd]
    rw [if_neg]
    rintro ⟨_, h⟩
    have h0 := congrArg (fun l => l.head?) h
    simp at h0
    exact hsum h0.symm
  · have hle : P.length ≤ i := Nat.le_of_not_lt hlt
    rw [List.set_append_right _ _ hle]
    rw [List.getElem?_append_right hle] at hb
    have hne := set_ne_self (List.replicate 16 (key.sum + nonce.sum + P.sum)) (i - P.length) b
      (by simp only [List.length_replicate]; omega) hb
    simp only [List.length_append, List.length_set, List.length_replicate,
      Nat.add_sub_cancel]
    have ht : (P ++ (List.replicate 16 (key.sum + nonce.sum + P.sum)).set (i - P.length) b).take
        P.length = P := List.take_left' rfl
    have hd : (P ++ (List.replicate 16 (key.sum + nonce.sum + P.sum)).set (i - P.length) b).drop
        P.length = (List.replicate 16 (key.sum + nonce.sum + P.sum)).set (i - P.length) b :=
      List.drop_left' rfl
    rw [ht, hd]
    rw [if_neg]
    rintro ⟨_, h⟩
    exact hne h

theorem plainGcm_open_seal (key n pt : Str) :
    plainGcm.Open key n (plainGcm.Seal key n pt) = some pt := by
  simp [plainGcm]

/-- C3 (as stated, refuted): the code makes no check of its own, so what it
answers to a changed byte is what the cipher answers.  With a cipher whose
`Open` inverts its `Seal` and that authenticates nothing, the blob sealed from
`a 1\n` with its byte at position 30 (in the ciphertext region) changed from
`1` to `2` is accepted by `DecryptFileAndLoadHashes` with the same password:
it returns the manifest `{a: 2}` and no error. -/
theorem decrypt_tampered_counterexample :
    (∀ key n pt, plainGcm.Open key n (plainGcm.Seal key n pt) = some pt) ∧
    EncryptAndWriteToFile demoKdf plainGcm [0x61, 0x20, 0x31, 0x0A] [0x70]
        (List.replicate 16 7) (List.replicate 12 5) =
      Except.ok (List.replicate 16 7 ++ (List.replicate 12 5 ++
        ([0x61, 0x20, 0x31, 0x0A] ++ List.replicate 16 0))) ∧
    16 + plainGcm.nonceSize ≤ 30 ∧
    (List.replicate 16 7 ++ (List.replicate 12 5 ++
      ([0x61, 0x20, 0x31, 0x0A] ++ List.replicate 16 0)))[30]? = some 0x31 ∧
    DecryptFileAndLoadHashes demoKdf plainGcm
        ((List.replicate 16 7 ++ (List.replicate 12 5 ++
          ([0x61, 0x20, 0x31, 0x0A] ++ List.replicate 16 0))).set 30 0x32) [0x70] =
      Outcome.returned (some (loadHashes [0x61, 0x20, 0x32, 0x0A]).1) none ∧
    (loadHashes [0x61, 0x20, 0x32, 0x0A]).1.entries = [⟨[0x61], [0x32]⟩] :=
  ⟨plainGcm_open_seal, rfl, by decide, by decide, rfl, by decide⟩

/-- C3 (amended): for every blob that `EncryptAndWriteToFile` builds from a plaintext `P`
and a password `W` (16-byte salt, nonce, sealed plaintext), every blob obtained
by changing the single byte at a position `j` of the ciphertext or tag region
(`j` at least 16 plus the nonce length) makes `DecryptFileAndLoadHashes` with
`W` return no manifest and the authentication error, provided the cipher
rejects every one-byte modification of what it sealed under the same key and
nonce; and a password under which `Open` rejects the untouched blob is answered
with that same error. -/
theorem decrypt_tampered (GenerateKey : KeyDerivation) (gcm : AEAD) (P W salt nonce : Str)
    (hsalt : salt.length = 16) (hnonce : nonce.length = gcm.nonceSize)
    (hkey : ∀ pw s, (GenerateKey pw s).length = 32)
    (hint : ∀ i b, i < (gcm.Seal (GenerateKey W salt) nonce P).length →
      (gcm.Seal (GenerateKey W salt) nonce P)[i]? ≠ some b →
      gcm.Open (GenerateKey W salt) nonce ((gcm.Seal (GenerateKey W salt) nonce P).set i b) = none)
    (j b : Nat) (hj : 16 + gcm.nonceSize ≤ j)
    (hjlt : j < (salt ++ (nonce ++ gcm.Seal (GenerateKey W salt) nonce P)).length)
    (hb : (salt ++ (nonce ++ gcm.Seal (GenerateKey W salt) nonce P))[j]? ≠ some b) :
    EncryptAndWriteToFile GenerateKey gcm P W salt nonce =
      Except.ok (salt ++ (nonce ++ gcm.Seal (GenerateKey W salt) nonce P)) ∧
    DecryptFileAndLoadHashes GenerateKey gcm
        ((salt ++ (nonce ++ gcm.Seal (GenerateKey W salt) nonce P)).set j b) W =
      Outcome.returned none (some GoError.messageAuthenticationFailed) ∧
    ∀ W1, gcm.Open (GenerateKey W1 salt) nonce (gcm.Seal (GenerateKey W salt) nonce P) = none →
      DecryptFileAndLoadHashes GenerateKey gcm (salt ++ (nonce ++ gcm.Seal (GenerateKey W salt) nonce P)) W1 =
        Outcome.returned none (some GoError.messageAuthenticationFailed) := by
  refine ⟨?_, ?_, ?_⟩
  · unfold EncryptAndWriteToFile
    simp [validKeySize_of_length _ (hkey W salt)]
  · have h1 : salt.length ≤ j := by omega
    have h2 : nonce.length ≤ j - salt.length := by omega
    rw [List.set_append_right _ _ h1, List.set_append_right _ _ h2]
    rw [List.getElem?_append_right h1, List.getElem?_append_right h2] at hb
    simp only [List.length_append] at hjlt
    have h3 := hint (j - salt.length - nonce.length) b (by omega) hb
    unfold DecryptFileAndLoadHashes
    rw [decryptBlob_sealed GenerateKey gcm W salt nonce _ hsalt hnonce hkey, h3]
  · intro W1 hW1
    unfold DecryptFileAndLoadHashes
    rw [decryptBlob_sealed GenerateKey gcm W1 salt nonce _ hsalt hnonce hkey, hW1]

/-- C3, witness: the small cipher, the blob sealed from `a 1\n`, and its byte
at position 29 (the second byte of the ciphertext) changed from `0x20` to
`0x21`. -/
theorem decrypt_tampered_witness :
    DecryptFileAndLoadHashes demoKdf demoGcm
        ((List.replicate 16 7 ++ (List.replicate 12 5 ++
          demoGcm.Seal (demoKdf [0x70] (List.replicate 16 7)) (List.replicate 12 5)
            [0x61, 0x20, 0x31, 0x0A])).set 29 0x21) [0x70] =
      Outcome.returned none (some GoError.messageAuthenticationFailed) :=
  (decrypt_tampered demoKdf demoGcm [0x61, 0x20, 0x31, 0x0A] [0x70]
    (List.replicate 16 7) (List.replicate 12 5) (by decide) (by decide) demoKdf_length
    (fun i b hi hb => demoGcm_open_set _ _ _ i b hi hb) 29 0x21 (by decide) (by decide)
    (by decide)).2.1

/-! ### `HashAllFilesInDirectory` -/

theorem walkLoop_spec (H : HashAlg) (walk : List WalkItem) :
    ∀ hashes : Manifest,
      (∀ it ∈ walk, it.walkErr = false) →
      (∀ it ∈ filesOf walk, Readable H it) →
      ((filesOf walk).map storedPath).Nodup →
      (∀ it ∈ filesOf walk, storedPath it ∉ hashes) →
      (walkLoop H hashes walk).2 = none ∧
      (∀ it ∈ filesOf walk,
        (walkLoop H hashes walk).1.lookup (storedPath it) = some (HashFile H it.file).1) ∧
      (∀ k, (∀ it ∈ filesOf walk, storedPath it ≠ k) →
        (walkLoop H hashes walk).1.lookup k = hashes.lookup k) ∧
      (walkLoop H hashes walk).1.entries.length =
        hashes.entries.length + (filesOf walk).length := by
  induction walk with
  | nil =>
    intro hashes _ _ _ _
    simp [walkLoop, filesOf]
  | cons it rest ih =>
    intro hashes hwalk hread hnodup hfresh
    have hw : it.walkErr = false := hwalk it (List.mem_cons_self _ _)
    have hwalk1 : ∀ it1 ∈ rest, it1.walkErr = false :=
      fun it1 h1 => hwalk it1 (List.mem_cons_of_mem _ h1)
    by_cases hdir : it.isDir = true
    · have hfiles : filesOf (it :: rest) = filesOf rest := by
        simp [filesOf, List.filter_cons, hdir]
      have hfn : walkFn H hashes it = (hashes, none) := by
        simp [walkFn, hw, hdir]
      rw [hfiles] at hread hnodup hfresh ⊢
      simp only [walkLoop, hfn]
      exact ih hashes hwalk1 hread hnodup hfresh
    · have hfiles : filesOf (it :: rest) = it :: filesOf rest := by
        simp [filesOf, List.filter_cons, hdir]
      rw [hfiles] at hread hnodup hfresh ⊢
      obtain ⟨_, herr, hrel⟩ := hread it (List.mem_cons_self _ _)
      obtain ⟨r, hr⟩ := Option.isSome_iff_exists.1 hrel
      have hsp : storedPath it = ReplaceAll r space underscore := by
        simp [storedPath, hr]
      have hfn : walkFn H hashes it =
          (hashes.insert (storedPath it) (HashFile H it.file).1, none) := by
        cases hh : HashFile H it.file with
        | mk fp err =>
          rw [hh] at herr
          simp only at herr
          subst herr
          simp [walkFn, hw, hdir, hh, hr, hsp]
      simp only [List.map_cons, List.nodup_cons, List.mem_map, not_exists, not_and] at hnodup
      have hread1 : ∀ it1 ∈ filesOf rest, Readable H it1 :=
        fun it1 h1 => hread it1 (List.mem_cons_of_mem _ h1)
      have hne : ∀ it1 ∈ filesOf rest, storedPath it1 ≠ storedPath it :=
        fun it1 h1 => hnodup.1 it1 h1
      have hfresh1 : ∀ it1 ∈ filesOf rest,
          storedPath it1 ∉ hashes.insert (storedPath it) (HashFile H it.file).1 := by
        intro it1 h1 hmem
        rcases (AList.mem_insert _).1 hmem with h2 | h2
        · exact hne it1 h1 h2
        · exact hfresh it1 (List.mem_cons_of_mem _ h1) h2
      obtain ⟨e1, e2, e3, e4⟩ := ih (hashes.insert (storedPath it) (HashFile H it.file).1)
        hwalk1 hread1 hnodup.2 hfresh1
      simp only [walkLoop, hfn]
      refine ⟨e1, ?_, ?_, ?_⟩
      · intro it1 h1
        rcases List.mem_cons.1 h1 with h2 | h2
        · subst h2
          rw [e3 _ (fun it2 h3 => hne it2 h3), AList.lookup_insert]
        · exact e2 it1 h2
      · intro k hk
        have hk0 : storedPath it ≠ k := hk it (List.mem_cons_self _ _)
        rw [e3 k (fun it2 h3 => hk it2 (List.mem_cons_of_mem _ h3))]
        exact AList.lookup_insert_ne (Ne.symm hk0)
      · rw [e4, AList.insert_entries_of_neg (hfresh it (List.mem_cons_self _ _))]
        simp only [List.length_cons]
        omega

/-- C7 (as stated, refuted): the traversal with the files `a b` and `a_b`,
which are readable, have distinct relative paths and distinct fingerprints,
gives a manifest with one entry, the fingerprint of `a_b`; the fingerprint of
`a b` is not in it. -/
theorem HashAll_collision_counterexample :
    (∀ it ∈ filesOf demoWalk, Readable demoHash it) ∧
    ((filesOf demoWalk).map (fun it => it.rel)).Nodup ∧
    (filesOf demoWalk).length = 2 ∧
    (HashAllFilesInDirectory demoHash demoWalk).2 = none ∧
    (HashAllFilesInDirectory demoHash demoWalk).1.entries.length = 1 ∧
    (HashAllFilesInDirectory demoHash demoWalk).1.lookup [0x61, 0x5F, 0x62] =
      some (HashFile demoHash (FileSource.opened [ReadResult.mk [2] none])).1 ∧
    (HashAllFilesInDirectory demoHash demoWalk).1.lookup [0x61, 0x5F, 0x62] ≠
      some (HashFile demoHash (FileSource.opened [ReadResult.mk [1] none])).1 := by
  decide

theorem HashAll_lookup (H : HashAlg) (walk : List WalkItem)
    (hwalk : ∀ it ∈ walk, it.walkErr = false)
    (hread : ∀ it ∈ filesOf walk, Readable H it)
    (hnodup : ((filesOf walk).map storedPath).Nodup) :
    (HashAllFilesInDirectory H walk).2 = none ∧
    (∀ it ∈ filesOf walk,
      (HashAllFilesInDirectory H walk).1.lookup (storedPath it) =
        some (HashFile H it.file).1) ∧
    (HashAllFilesInDirectory H walk).1.entries.length = (filesOf walk).length := by
  obtain ⟨e1, e2, _, e4⟩ := walkLoop_spec H walk ∅ hwalk hread hnodup
    (fun _ _ => AList.not_mem_empty _)
  refine ⟨e1, e2, ?_⟩
  unfold HashAllFilesInDirectory
  rw [e4]
  simp

/-- C7 (amended): for every directory traversal without walk errors whose
files are readable and have pairwise distinct normalized relative paths (the
relative paths differ after every `' '` is replaced by `'_'`),
`HashAllFilesInDirectory` returns without error a manifest that has, for each
file, an entry whose key is the normalized relative path of the file and whose
value is the fingerprint of that file, and that has as many entries as there
are files; and a second such traversal in which a file of the same normalized
path has another fingerprint gives another manifest. -/
theorem HashAll_fingerprints (H : HashAlg) (walk : List WalkItem)
    (hwalk : ∀ it ∈ walk, it.walkErr = false)
    (hread : ∀ it ∈ filesOf walk, Readable H it)
    (hnodup : ((filesOf walk).map storedPath).Nodup) :
    (HashAllFilesInDirectory H walk).2 = none ∧
    (∀ it ∈ filesOf walk,
      (HashAllFilesInDirectory H walk).1.lookup (storedPath it) =
        some (HashFile H it.file).1) ∧
    (HashAllFilesInDirectory H walk).1.entries.length = (filesOf walk).length ∧
    (∀ walk1 : List WalkItem,
      (∀ it ∈ walk1, it.walkErr = false) →
      (∀ it ∈ filesOf walk1, Readable H it) →
      ((filesOf walk1).map storedPath).Nodup →
      ∀ it ∈ filesOf walk, ∀ it1 ∈ filesOf walk1,
        storedPath it1 = storedPath it →
        (HashFile H it1.file).1 ≠ (HashFile H it.file).1 →
        (HashAllFilesInDirectory H walk1).1.lookup (storedPath it) ≠
          (HashAllFilesInDirectory H walk).1.lookup (storedPath it)) := by
  obtain ⟨e1, e2, e3⟩ := HashAll_lookup H walk hwalk hread hnodup
  refine ⟨e1, e2, e3, ?_⟩
  intro walk1 hwalk1 hread1 hnodup1 it hit it1 hit1 hsame hne
  obtain ⟨_, f2, _⟩ := HashAll_lookup H walk1 hwalk1 hread1 hnodup1
  rw [e2 it hit, ← hsame, f2 it1 hit1]
  intro h
  exact hne (Option.some.inj h)

/-- C7, witness: the traversal with the files `a b` and `c`. -/
theorem HashAll_fingerprints_witness :
    (∀ it ∈ demoWalk2, it.walkErr = false) ∧
    (∀ it ∈ filesOf demoWalk2, Readable demoHash it) ∧
    ((filesOf demoWalk2).map storedPath).Nodup ∧
    (HashAllFilesInDirectory demoHash demoWalk2).1.entries.length = (filesOf demoWalk2).length :=
  ⟨by decide, by decide, by decide,
    (HashAll_fingerprints demoHash demoWalk2 (by decide) (by decide) (by decide)).2.2.1⟩

/-! ### `strings.Fields` -/

theorem DecodeRune_ascii (b : Nat) (rest : Str) (h : b < 0x80) :
    DecodeRune (b :: rest) = (b, 1) := by
  simp [DecodeRune, h]

theorem DecodeRune_width_le (s : Str) : (DecodeRune s).2 ≤ s.length := by
  rcases s with _ | ⟨b0, _ | ⟨b1, _ | ⟨b2, _ | ⟨b3, x⟩⟩⟩⟩ <;>
    simp only [DecodeRune] <;> (repeat' split) <;> simp

theorem DecodeRune_append (x y : Str) (sp : Nat) (hx : x ≠ []) (hsp : sp < 0x80) :
    DecodeRune (x ++ sp :: y) = DecodeRune x := by
  have hc : isCont sp = false := by simp [isCont]; omega
  rcases x with _ | ⟨b0, _ | ⟨b1, _ | ⟨b2, _ | ⟨b3, x⟩⟩⟩⟩
  · exact absurd rfl hx
  · rcases y with _ | ⟨y0, _ | ⟨y1, y⟩⟩ <;>
      simp only [DecodeRune, List.cons_append, List.nil_append] <;> (repeat' split) <;>
      simp_all <;> omega
  · rcases y with _ | ⟨y0, y⟩ <;>
      simp only [DecodeRune, List.cons_append, List.nil_append] <;> (repeat' split) <;>
      simp_all
  · simp only [DecodeRune, List.cons_append, List.nil_append]
    (repeat' split) <;> simp_all
  · simp only [DecodeRune, List.cons_append, List.nil_append]

theorem asciiSpace_lt (sp : Nat) (h : asciiSpace sp = true) : sp < 0x80 := by
  simp only [asciiSpace, decide_eq_true_eq] at h
  omega

theorem asciiSpace_IsSpace (sp : Nat) (h : asciiSpace sp = true) : IsSpace sp = true := by
  simp only [asciiSpace, decide_eq_true_eq] at h
  rcases h with h | h | h | h | h | h <;> subst h <;> decide

theorem fieldsLoop_append (y : Str) (sp : Nat) (hsp : asciiSpace sp = true) (x : Str) :
    ∀ (skip : Nat) (field : Option Str), skip ≤ x.length →
      fieldsLoop (x ++ sp :: y) skip field = fieldsLoop x skip field ++ fieldsLoop y 0 none := by
  have hlt := asciiSpace_lt sp hsp
  have hsome := asciiSpace_IsSpace sp hsp
  induction x with
  | nil =>
    intro skip field hskip
    have h0 : skip = 0 := by simpa using hskip
    subst h0
    cases field with
    | none => simp [fieldsLoop, DecodeRune_ascii _ _ hlt, hsome]
    | some f => simp [fieldsLoop, DecodeRune_ascii _ _ hlt, hsome]
  | cons b x ih =>
    intro skip field hskip
    cases skip with
    | succ k =>
      simp only [List.cons_append, fieldsLoop, List.append_eq]
      exact ih k _ (by simpa using hskip)
    | zero =>
      have hd : DecodeRune (b :: (x ++ sp :: y)) = DecodeRune (b :: x) :=
        DecodeRune_append (b :: x) y sp (by simp) hlt
      have hw : (DecodeRune (b :: x)).2 - 1 ≤ x.length := by
        have := DecodeRune_width_le (b :: x)
        simp only [List.length_cons] at this
        omega
      simp only [List.cons_append, fieldsLoop, List.append_eq, hd]
      by_cases hs : IsSpace (DecodeRune (b :: x)).1 = true
      · cases field with
        | none => simp only [hs, if_true]; exact ih _ _ hw
        | some f => simp only [hs, if_true, List.cons_append]; rw [ih _ _ hw]
      · simp only [hs, if_false, Bool.false_eq_true]
        exact ih _ _ hw

theorem Fields_append (x y : Str) (sp : Nat) (hsp : asciiSpace sp = true) :
    Fields (x ++ sp :: y) = Fields x ++ Fields y :=
  fieldsLoop_append y sp hsp x 0 none (Nat.zero_le _)

theorem Fields_nil : Fields [] = [] := rfl

theorem Fields_dropCR (line : Str) : Fields (dropCR line) = Fields line := by
  unfold dropCR
  split
  · rename_i h
    have hne : line ≠ [] := by
      intro h0; rw [h0] at h; simp at h
    have hl := List.dropLast_concat_getLast hne
    have hlast : line.getLast hne = carriageReturn := by
      rw [List.getLast?_eq_getLast _ hne] at h
      exact Option.some.inj h
    rw [hlast] at hl
    conv_rhs => rw [← hl]
    have := Fields_append line.dropLast [] carriageReturn (by decide)
    simp only [Fields_nil, List.append_nil] at this
    exact this.symm
  · rfl

/-! ### The scanner and the line parser -/

theorem scanLoop_line (rest : Str) (l : Str) :
    ∀ cur : Str, newline ∉ l → (cur ++ l).length < maxScanTokenSize →
      scanLoop (l ++ newline :: rest) cur =
        (dropCR (cur ++ l) :: (scanLoop rest []).1, (scanLoop rest []).2) := by
  induction l with
  | nil =>
    intro cur _ hlen
    simp only [List.append_nil] at hlen
    simp only [List.nil_append, scanLoop, List.append_nil, Nat.not_le.2 hlen, if_false, if_true]
  | cons b l ih =>
    intro cur hnl hlen
    have hb : b ≠ newline := fun h => hnl (by simp [h])
    have hl : newline ∉ l := fun h => hnl (List.mem_cons_of_mem _ h)
    have hcur : ¬ maxScanTokenSize ≤ cur.length := by
      simp only [List.length_append, List.length_cons] at hlen
      omega
    have h2 : ((cur ++ [b]) ++ l).length < maxScanTokenSize := by
      simpa using hlen
    simp only [List.cons_append, scanLoop, hcur, hb, if_false, List.append_eq]
    rw [ih (cur ++ [b]) hl h2]
    simp

theorem scanLoop_last (last : Str) :
    ∀ cur : Str, newline ∉ last → (cur ++ last).length < maxScanTokenSize →
      scanLoop last cur = (if cur ++ last = [] then [] else [dropCR (cur ++ last)], none) := by
  induction last with
  | nil =>
    intro cur _ hlen
    simp only [List.append_nil] at hlen ⊢
    by_cases hc : cur = []
    · simp [scanLoop, hc]
    · simp [scanLoop, hc, Nat.not_le.2 hlen]
  | cons b l ih =>
    intro cur hnl hlen
    have hb : b ≠ newline := fun h => hnl (by simp [h])
    have hl : newline ∉ l := fun h => hnl (List.mem_cons_of_mem _ h)
    have hcur : ¬ maxScanTokenSize ≤ cur.length := by
      simp only [List.length_append, List.length_cons] at hlen
      omega
    have h2 : ((cur ++ [b]) ++ l).length < maxScanTokenSize := by
      simpa using hlen
    simp only [scanLoop, hcur, hb, if_false]
    rw [ih (cur ++ [b]) hl h2]
    simp

theorem scanLines_textOf (ls : List Str) (last : Str)
    (hnl : ∀ l ∈ ls, newline ∉ l) (hnl1 : newline ∉ last)
    (hlen : ∀ l ∈ ls, l.length < maxScanTokenSize) (hlen1 : last.length < maxScanTokenSize) :
    scanLines (textOf ls last) = ((linesOf ls last).map dropCR, none) := by
  unfold scanLines
  induction ls with
  | nil =>
    rw [textOf, scanLoop_last last [] hnl1 (by simpa using hlen1)]
    by_cases h : last = [] <;> simp [linesOf, h]
  | cons l ls ih =>
    have h1 := ih (fun l1 h => hnl l1 (List.mem_cons_of_mem _ h))
      (fun l1 h => hlen l1 (List.mem_cons_of_mem _ h))
    have h2 := scanLoop_line (textOf ls last) l [] (hnl l (List.mem_cons_self _ _))
      (by simpa using hlen l (List.mem_cons_self _ _))
    have h3 : textOf (l :: ls) last = l ++ newline :: textOf ls last := by
      simp [textOf]
    rw [h3, h2, h1]
    by_cases h : last = [] <;> simp [linesOf, h]

theorem lineStep_eq (acc : Manifest) (line : Str) :
    lineStep acc line =
      match lineEntry line with
      | some e => acc.insert e.1 e.2
      | none => acc := by
  unfold lineStep lineEntry
  split <;> simp_all

theorem lineEntry_dropCR (line : Str) : lineEntry (dropCR line) = lineEntry line := by
  unfold lineEntry
  rw [Fields_dropCR]

theorem foldl_lineStep_lookup (toks : List Str) (acc : Manifest) (k : Str) :
    (toks.foldl lineStep acc).lookup k =
      match (toks.reverse.filterMap lineEntry).find? (fun e => decide (e.1 = k)) with
      | some e => some e.2
      | none => acc.lookup k := by
  induction toks using List.reverseRecOn with
  | nil => simp
  | append_singleton ts t ih =>
    rw [List.foldl_append, List.foldl_cons, List.foldl_nil, lineStep_eq, List.reverse_append,
      List.reverse_singleton, List.singleton_append, List.filterMap_cons]
    cases ht : lineEntry t with
    | none => simp only [ih]
    | some e =>
      simp only [List.find?_cons]
      by_cases hk : e.1 = k
      · simp only [hk, decide_True]
        rw [← hk, AList.lookup_insert]
      · simp only [hk, decide_False]
        rw [AList.lookup_insert_ne (Ne.symm hk), ih]

theorem specLookup_map_dropCR (lines : List Str) (k : Str) :
    specLookup (lines.map dropCR) k = specLookup lines k := by
  unfold specLookup
  rw [← List.map_reverse, List.filterMap_map]
  have : (lineEntry ∘ dropCR) = lineEntry := funext lineEntry_dropCR
  rw [this]

theorem scanLoop_too_long (a : Nat) (ha : a ≠ newline) (rest : Str) (n : Nat) :
    ∀ cur : Str, maxScanTokenSize ≤ cur.length + n →
      scanLoop (List.replicate n a ++ rest) cur = ([], some GoError.tokenTooLong) := by
  induction n with
  | zero =>
    intro cur hlen
    have hlen0 : maxScanTokenSize ≤ cur.length := by simpa using hlen
    have hne : cur ≠ [] := by
      intro h
      rw [h] at hlen0
      simp [maxScanTokenSize] at hlen0
    cases rest with
    | nil => simp [scanLoop, hne, hlen0]
    | cons b rest => simp [scanLoop, hlen0]
  | succ n ih =>
    intro cur hlen
    by_cases hc : maxScanTokenSize ≤ cur.length
    · simp [List.replicate_succ, scanLoop, hc]
    · have h2 : maxScanTokenSize ≤ (cur ++ [a]).length + n := by
        simp only [List.length_append, List.length_singleton]
        omega
      simp only [List.replicate_succ, List.cons_append, scanLoop, hc, ha, if_false,
        List.append_eq]
      exact ih (cur ++ [a]) h2

theorem exists_textOf (plaintext : Str) :
    ∃ ls last, plaintext = textOf ls last ∧ (∀ l ∈ ls, newline ∉ l) ∧ newline ∉ last := by
  induction plaintext with
  | nil => exact ⟨[], [], rfl, by simp, by simp⟩
  | cons b rest ih =>
    obtain ⟨ls, last, h1, h2, h3⟩ := ih
    by_cases hb : b = newline
    · refine ⟨[] :: ls, last, ?_, ?_, h3⟩
      · simp [textOf, hb, h1]
      · intro l hl
        rcases List.mem_cons.1 hl with h | h
        · simp [h]
        · exact h2 l h
    · cases ls with
      | nil =>
        refine ⟨[], b :: last, ?_, by simp, ?_⟩
        · simp [textOf] at h1 ⊢
          exact h1
        · simp only [List.mem_cons, not_or]
          exact ⟨Ne.symm hb, h3⟩
      | cons l ls =>
        refine ⟨(b :: l) :: ls, last, ?_, ?_, h3⟩
        · simp [textOf] at h1 ⊢
          exact h1
        · intro l1 hl1
          rcases List.mem_cons.1 hl1 with h | h
          · rw [h]
            simp only [List.mem_cons, not_or]
            exact ⟨Ne.symm hb, h2 l (List.mem_cons_self _ _)⟩
          · exact h2 l1 (List.mem_cons_of_mem _ h)

/-- C6 (as stated, refuted): on the plaintext of one line of 65536 bytes `a`
followed by the well-formed line `b c`, the line parser fails with
`bufio.ErrTooLong`, and the line `b c` after the over-long line is not parsed:
the manifest has no entry for `b`. -/
theorem loadHashes_too_long_counterexample :
    (loadHashes (List.replicate 65536 0x61 ++ [0x0A, 0x62, 0x20, 0x63, 0x0A])).2 =
      some GoError.tokenTooLong ∧
    (loadHashes (List.replicate 65536 0x61 ++ [0x0A, 0x62, 0x20, 0x63, 0x0A])).1.lookup [0x62] =
      none := by
  have h := scanLoop_too_long 0x61 (by decide) [0x0A, 0x62, 0x20, 0x63, 0x0A] 65536 []
    (by decide)
  unfold loadHashes scanLines
  rw [h]
  exact ⟨rfl, rfl⟩

/-- C6 (amended): for every plaintext, given as its lines `ls` (each ended by
`'\n'`) and its final unterminated line `last`, if every line is shorter than
65536 bytes (the token limit of `bufio.Scanner`), the line parser of
`DecryptFileAndLoadHashes` does not fail, and the manifest it returns maps each
path `k` to the second field of the last line that splits into exactly two
white-space separated fields of which `k` is the first, and has no entry for
`k` when there is no such line: lines with zero, one, or three or more fields
add nothing and stop nothing. -/
theorem loadHashes_spec (ls : List Str) (last : Str)
    (hnl : ∀ l ∈ ls, newline ∉ l) (hnl1 : newline ∉ last)
    (hlen : ∀ l ∈ ls, l.length < maxScanTokenSize) (hlen1 : last.length < maxScanTokenSize) :
    (loadHashes (textOf ls last)).2 = none ∧
    ∀ k, (loadHashes (textOf ls last)).1.lookup k = specLookup (linesOf ls last) k := by
  unfold loadHashes
  simp only [scanLines_textOf ls last hnl hnl1 hlen hlen1, true_and]
  intro k
  rw [foldl_lineStep_lookup, ← specLookup_map_dropCR]
  unfold specLookup
  cases ((List.map dropCR (linesOf ls last)).reverse.filterMap lineEntry).find?
    (fun e => decide (e.1 = k)) with
  | none => simp
  | some e => simp

/-- C6, witness: the plaintext `a 1\n` `x\n` `a 2 3\n` `\n` `a 4\r\n` `b 5`. -/
theorem loadHashes_spec_witness :
    (∀ l ∈ [[0x61, 0x20, 0x31], [0x78], [0x61, 0x20, 0x32, 0x20, 0x33], [],
      [0x61, 0x20, 0x34, 0x0D]], newline ∉ l) ∧
    newline ∉ [0x62, 0x20, 0x35] ∧
    (loadHashes (textOf [[0x61, 0x20, 0x31], [0x78], [0x61, 0x20, 0x32, 0x20, 0x33], [],
      [0x61, 0x20, 0x34, 0x0D]] [0x62, 0x20, 0x35])).2 = none :=
  ⟨by decide, by decide,
    (loadHashes_spec [[0x61, 0x20, 0x31], [0x78], [0x61, 0x20, 0x32, 0x20, 0x33], [],
      [0x61, 0x20, 0x34, 0x0D]] [0x62, 0x20, 0x35] (by decide) (by decide) (by decide)
      (by decide)).1⟩

/-- C6, evaluated: the plaintext of the witness gives `{a: 4, b: 5}`. -/
theorem loadHashes_demo :
    (loadHashes (textOf [[0x61, 0x20, 0x31], [0x78], [0x61, 0x20, 0x32, 0x20, 0x33], [],
      [0x61, 0x20, 0x34, 0x0D]] [0x62, 0x20, 0x35])).1.entries =
      [⟨[0x62], [0x35]⟩, ⟨[0x61], [0x34]⟩] := by
  decide

/-! ### The manifest text: encoding, then decoding -/

theorem fieldsLoop_length (s : Str) :
    ∀ (skip : Nat) (field : Option Str),
      ((fieldsLoop s skip field).map List.length).sum ≤ s.length + (field.getD []).length := by
  induction s with
  | nil =>
    intro skip field
    cases field <;> simp [fieldsLoop]
  | cons b rest ih =>
    intro skip field
    cases skip with
    | succ k =>
      simp only [fieldsLoop]
      have := ih k (field.map (fun f => f ++ [b]))
      cases field with
      | none => simp at this ⊢; omega
      | some f => simp at this ⊢; omega
    | zero =>
      simp only [fieldsLoop]
      split
      · cases field with
        | none =>
          have := ih ((DecodeRune (b :: rest)).2 - 1) none
          simp at this ⊢; omega
        | some f =>
          have := ih ((DecodeRune (b :: rest)).2 - 1) none
          simp at this ⊢; omega
      · have := ih ((DecodeRune (b :: rest)).2 - 1) (some (field.getD [] ++ [b]))
        simp at this ⊢; omega

theorem Fields_length (s : Str) : ((Fields s).map List.length).sum ≤ s.length := by
  have := fieldsLoop_length s 0 none
  simpa [Fields] using this

theorem not_asciiSpace_of_Fields (s : Str) (h : Fields s = [s]) (b : Nat) (hb : b ∈ s) :
    asciiSpace b = false := by
  by_contra hsp
  simp only [Bool.not_eq_false] at hsp
  obtain ⟨x, y, hxy⟩ := List.append_of_mem hb
  have h1 := Fields_append x y b hsp
  rw [← hxy, h] at h1
  have h2 := congrArg (fun l => (l.map List.length).sum) h1
  simp only [List.map_cons, List.map_nil, List.sum_cons, List.sum_nil, List.map_append,
    List.sum_append] at h2
  have hx := Fields_length x
  have hy := Fields_length y
  have hs : s.length = x.length + y.length + 1 := by
    rw [hxy]; simp; omega
  omega

theorem lineEntry_lineOf (e : Entry) (h1 : Fields e.1 = [e.1]) (h2 : Fields e.2 = [e.2]) :
    lineEntry (lineOf e) = some e := by
  have h : Fields (lineOf e) = [e.1, e.2] := by
    have := Fields_append e.1 e.2 space (by decide)
    simp only [lineOf, List.append_assoc, List.singleton_append]
    rw [this, h1, h2]
    rfl
  unfold lineEntry
  rw [h]

theorem newline_not_mem_lineOf (e : Entry) (h1 : Fields e.1 = [e.1]) (h2 : Fields e.2 = [e.2]) :
    newline ∉ lineOf e := by
  intro hm
  simp only [lineOf, List.mem_append, List.mem_singleton] at hm
  rcases hm with (hm | hm) | hm
  · have := not_asciiSpace_of_Fields e.1 h1 newline hm
    revert this; decide
  · revert hm; decide
  · have := not_asciiSpace_of_Fields e.2 h2 newline hm
    revert this; decide

theorem hashString_eq_textOf (order : List Entry) :
    hashString order = textOf (order.map lineOf) [] := by
  induction order with
  | nil => rfl
  | cons e rest ih => simp only [hashString, List.map_cons, textOf, ih, lineOf]

theorem find?_eq_lookup (m : Manifest) (order : List Entry) (ho : RangeOrder m order)
    (l : List Entry) (hl : ∀ e, e ∈ l ↔ e ∈ order) (k : Str) :
    (l.find? (fun e => decide (e.1 = k))).map (fun e => e.2) = m.lookup k := by
  cases hf : l.find? (fun e => decide (e.1 = k)) with
  | none =>
    rw [List.find?_eq_none] at hf
    cases hm : m.lookup k with
    | none => rfl
    | some v =>
      have h1 : (⟨k, v⟩ : Entry) ∈ order := (mem_rangeOrder_iff m order ho ⟨k, v⟩).2 hm
      have h2 := hf ⟨k, v⟩ ((hl _).2 h1)
      simp at h2
  | some e =>
    have h1 : e ∈ order := (hl e).1 (List.mem_of_find?_eq_some hf)
    have h2 := List.find?_some hf
    simp only [decide_eq_true_eq] at h2
    have h3 := (mem_rangeOrder_iff m order ho e).1 h1
    rw [h2] at h3
    rw [h3]
    rfl

/-- C5 (as stated, refuted): the manifest of a directory with the one file
`a\tb`, whose path holds a tab and no line terminator, has the path with the
fingerprint of the file; it is encoded as the line `a\tb <fingerprint>`, which
has three fields, so decoding returns a manifest without the path. -/
theorem decode_encode_counterexample :
    newline ∉ ([0x61, 0x09, 0x62] : Str) ∧ carriageReturn ∉ ([0x61, 0x09, 0x62] : Str) ∧
    demoTabManifest.lookup [0x61, 0x09, 0x62] =
      some (HashFile demoHash (FileSource.opened [ReadResult.mk [1] none])).1 ∧
    (loadHashes (hashString demoTabManifest.entries)).2 = none ∧
    (loadHashes (hashString demoTabManifest.entries)).1.lookup [0x61, 0x09, 0x62] = none := by
  decide

/-- C5 (amended): for every manifest `m` in which every path and every
fingerprint is one white-space free, non-empty field (`strings.Fields` returns
it as its only field) and every line `<path> <fingerprint>` is shorter than
65536 bytes, decoding the text that build mode encodes from `m`, with the
entries in any order, does not fail and returns a manifest equal to `m`: every
path has in it the fingerprint it has in `m`, or none. -/
theorem decode_encode (m : Manifest) (order : List Entry) (ho : RangeOrder m order)
    (hfields : ∀ e ∈ m.entries, Fields e.1 = [e.1] ∧ Fields e.2 = [e.2])
    (hlen : ∀ e ∈ m.entries, (lineOf e).length < maxScanTokenSize) :
    (loadHashes (hashString order)).2 = none ∧
    ∀ k, (loadHashes (hashString order)).1.lookup k = m.lookup k := by
  have hmem : ∀ e, e ∈ order → e ∈ m.entries := fun e he => ho.mem_iff.1 he
  have hspec := loadHashes_spec (order.map lineOf) []
    (by
      intro l hl
      obtain ⟨e, he, rfl⟩ := List.mem_map.1 hl
      exact newline_not_mem_lineOf e (hfields e (hmem e he)).1 (hfields e (hmem e he)).2)
    (by simp)
    (by
      intro l hl
      obtain ⟨e, he, rfl⟩ := List.mem_map.1 hl
      exact hlen e (hmem e he))
    (by simp [maxScanTokenSize])
  rw [← hashString_eq_textOf] at hspec
  refine ⟨hspec.1, fun k => ?_⟩
  rw [hspec.2 k]
  unfold specLookup linesOf
  simp only [if_true, ← List.map_reverse, List.filterMap_map]
  have hfm : order.reverse.filterMap (lineEntry ∘ lineOf) = order.reverse.filterMap some := by
    apply List.filterMap_congr
    intro e he
    have he1 : e ∈ m.entries := hmem e (List.mem_reverse.1 he)
    exact lineEntry_lineOf e (hfields e he1).1 (hfields e he1).2
  rw [hfm, List.filterMap_some]
  exact find?_eq_lookup m order ho order.reverse (fun e => List.mem_reverse) k

/-- C5, witness: the manifest `{a: 1, b: 3, c: 4}`. -/
theorem decode_encode_witness :
    RangeOrder demoRecalculated demoRecalculated.entries ∧
    (∀ e ∈ demoRecalculated.entries, Fields e.1 = [e.1] ∧ Fields e.2 = [e.2]) ∧
    (∀ e ∈ demoRecalculated.entries, (lineOf e).length < maxScanTokenSize) ∧
    (loadHashes (hashString demoRecalculated.entries)).2 = none ∧
    ∀ k, (loadHashes (hashString demoRecalculated.entries)).1.lookup k =
      demoRecalculated.lookup k :=
  ⟨by decide, by decide, by decide,
    decode_encode demoRecalculated demoRecalculated.entries (by decide) (by decide)
      (by decide)⟩

theorem fieldsLoop_of_ascii (s : Str) (hs : ∀ b ∈ s, b < 0x80 ∧ IsSpace b = false) :
    ∀ f : Str, fieldsLoop s 0 (some f) = [f ++ s] := by
  induction s with
  | nil => intro f; simp [fieldsLoop]
  | cons b rest ih =>
    intro f
    obtain ⟨hb1, hb2⟩ := hs b (List.mem_cons_self _ _)
    have hrest := ih (fun c hc => hs c (List.mem_cons_of_mem _ hc)) (f ++ [b])
    simp only [fieldsLoop, DecodeRune_ascii b rest hb1, hb2, Bool.false_eq_true, if_false,
      Nat.sub_self, Option.getD_some]
    rw [hrest]
    simp

theorem Fields_of_ascii (s : Str) (hne : s ≠ [])
    (hs : ∀ b ∈ s, b < 0x80 ∧ IsSpace b = false) : Fields s = [s] := by
  cases s with
  | nil => exact absurd rfl hne
  | cons b rest =>
    obtain ⟨hb1, hb2⟩ := hs b (List.mem_cons_self _ _)
    have hrest := fieldsLoop_of_ascii rest (fun c hc => hs c (List.mem_cons_of_mem _ hc)) [b]
    simp only [Fields, fieldsLoop, DecodeRune_ascii b rest hb1, hb2, Bool.false_eq_true,
      if_false, Nat.sub_self, Option.getD_none, List.nil_append]
    rw [hrest]
    simp

/-- Every fingerprint `HashFile` returns, the hexadecimal encoding of a
non-empty digest, is one white-space free field. -/
theorem Fields_hexEncode (digest : Str) (hne : digest ≠ []) :
    Fields (hexEncode digest) = [hexEncode digest] := by
  apply Fields_of_ascii
  · cases digest with
    | nil => exact absurd rfl hne
    | cons b bs => simp [hexEncode]
  · intro c hc
    have h := mem_hexEncode digest c hc
    constructor
    · omega
    · have h1 : c ≤ 0xFF := by omega
      simp only [IsSpace, h1, if_true, decide_eq_false_iff_not]
      omega

end IntegrityGuard
